import Mathlib

/-!
# Marble solitaire: the board state machine of `src/main.cpp`

A shallow embedding of the game logic (`initGameBoard`, `isValidMove`,
`performMove`, `undoMove`, `redoMove`, `checkGameState`, the select-or-move
part of `processMouseClick` and the Replay handler of `renderImGui`).

Conventions of the embedding.

* C++ `int` values are modelled by `Int`.  Every arithmetic operation of the
  embedded functions is performed on values that a preceding range check
  confines to a few units around `[0, BOARD_SIZE)`, so no 32-bit overflow can
  occur and no wrap-around needs to be modelled.  C++ `/` and `%` truncate
  towards zero: they are `Int.tdiv` and `Int.tmod`.
* `board` is a `vector<vector<CellState>>`; it is modelled by a list of rows.
  Indexing a vector outside its bounds is undefined behaviour: reads and
  writes return `Option`, with `none` for an access outside the grid, and the
  functions that index the board run in the `Option` monad.
* The stacks `moveHistory` and `redoHistory` are lists whose head is the top.
* `gameEndTime` (a float read from the GLFW clock) is not part of the model.
-/

namespace MarbleSolitaire

/-- The three cell states: `enum CellState { INVALID, EMPTY, MARBLE }`. -/
inductive CellState where
  | INVALID
  | EMPTY
  | MARBLE
  deriving DecidableEq, Repr

open CellState

/-- The macro `BOARD_SIZE` (7 is the default size). -/
def BOARD_SIZE : Int := 7

/-- The macro `CENTERWIN`: whether the last marble has to be in the center. -/
def CENTERWIN : Bool := false

/-- A board is a list of rows of cells (`vector<vector<CellState>>`). -/
abbrev Board := List (List CellState)

/-- The shape every board of the program has: `BOARD_SIZE` rows of
`BOARD_SIZE` cells. -/
def WellFormed (b : Board) : Prop :=
  (b.length : Int) = BOARD_SIZE ∧ ∀ row ∈ b, (row.length : Int) = BOARD_SIZE

instance (b : Board) : Decidable (WellFormed b) := by
  unfold WellFormed; infer_instance

/-- The read `board[r][c]`; `none` when the access is outside the vectors. -/
def readCell (b : Board) (r c : Int) : Option CellState :=
  if 0 ≤ r ∧ 0 ≤ c then
    match b[r.toNat]? with
    | some row => row[c.toNat]?
    | none => none
  else none

/-- The write `board[r][c] = v`; `none` when the access is outside the
vectors. -/
def writeCell (b : Board) (r c : Int) (v : CellState) : Option Board :=
  if 0 ≤ r ∧ 0 ≤ c then
    match b[r.toNat]? with
    | some row =>
      if c.toNat < row.length then some (b.set r.toNat (row.set c.toNat v)) else none
    | none => none
  else none

/-- The global variables of the game logic. -/
structure GameState where
  board : Board
  moveHistory : List Board
  redoHistory : List Board
  selectedRow : Int
  selectedCol : Int
  undosRemaining : Int
  gameOver : Bool
  gameWon : Bool
  gameLost : Bool
  deriving DecidableEq, Repr

/-- The initial values of the globals, before `main` runs: a board of
`BOARD_SIZE` rows of `BOARD_SIZE` `INVALID` cells, empty stacks, no selection,
three undos. -/
def globals : GameState where
  board := List.replicate BOARD_SIZE.toNat (List.replicate BOARD_SIZE.toNat INVALID)
  moveHistory := []
  redoHistory := []
  selectedRow := -1
  selectedCol := -1
  undosRemaining := 3
  gameOver := false
  gameWon := false
  gameLost := false

/-- The cell state `initGameBoard` assigns at `(r, c)` inside its loops, for
board size `bs`. -/
def layoutCell (bs r c : Int) : CellState :=
  if (bs.tmod 3 = 0 ∧ (r < bs.tdiv 3 ∨ r > (2 * bs).tdiv 3 - 1)
        ∧ (c < bs.tdiv 3 ∨ c > (2 * bs).tdiv 3 - 1)) ∨
     (bs.tmod 3 = 1 ∧ (r < (bs - 1).tdiv 3 ∨ r > (2 * (bs - 1)).tdiv 3)
        ∧ (c < (bs - 1).tdiv 3 ∨ c > (2 * (bs - 1)).tdiv 3)) ∨
     (bs.tmod 3 = 2 ∧ (r < (bs - 2).tdiv 3 + 1 ∨ r > (2 * (bs - 2)).tdiv 3)
        ∧ (c < (bs - 2).tdiv 3 + 1 ∨ c > (2 * (bs - 2)).tdiv 3))
  then INVALID else MARBLE

/-- The integers `0, 1, ..., n - 1`: the values a loop
`for (int i = 0; i < n; i++)` gives its counter. -/
def loopRange (n : Int) : List Int :=
  (List.range n.toNat).map Int.ofNat

/-- The two nested loops of `initGameBoard`. -/
def initLoops (b : Board) : Option Board :=
  let bs := BOARD_SIZE
  (loopRange bs).foldlM
    (fun b1 r => (loopRange bs).foldlM (fun b2 c => writeCell b2 r c (layoutCell bs r c)) b1) b

/-- `void initGameBoard()`. -/
def initGameBoard (s : GameState) : Option GameState := do
  let b ← initLoops s.board
  let b ← writeCell b (BOARD_SIZE.tdiv 2) (BOARD_SIZE.tdiv 2) EMPTY
  pure { s with board := b, moveHistory := b :: s.moveHistory }

/-- `bool isValidMove(int sr, int sc, int dr, int dc)`, reading the board
`b`. -/
def isValidMove (b : Board) (sr sc dr dc : Int) : Option Bool :=
  if sr < 0 ∨ sr ≥ BOARD_SIZE ∨ sc < 0 ∨ sc ≥ BOARD_SIZE ∨
      dr < 0 ∨ dr ≥ BOARD_SIZE ∨ dc < 0 ∨ dc ≥ BOARD_SIZE then
    some false
  else if ¬(((dr - sr).natAbs = 2 ∧ sc = dc) ∨ ((dc - sc).natAbs = 2 ∧ sr = dr)) then
    some false
  else
    let mr := (sr + dr).tdiv 2
    let mc := (sc + dc).tdiv 2
    match readCell b sr sc with
    | none => none
    | some src =>
      if src ≠ MARBLE then some false
      else
        match readCell b dr dc with
        | none => none
        | some dst =>
          if dst ≠ EMPTY then some false
          else
            match readCell b mr mc with
            | none => none
            | some mid => if mid ≠ MARBLE then some false else some true

/-- `void performMove(int sr, int sc, int dr, int dc)`. -/
def performMove (s : GameState) (sr sc dr dc : Int) : Option GameState := do
  let ok ← isValidMove s.board sr sc dr dc
  if !ok then
    pure s
  else
    let b ← writeCell s.board sr sc EMPTY
    let mr := (sr + dr).tdiv 2
    let mc := (sc + dc).tdiv 2
    let b ← writeCell b mr mc EMPTY
    let b ← writeCell b dr dc MARBLE
    pure { s with board := b, moveHistory := b :: s.moveHistory, redoHistory := [] }

/-- `void undoMove()`.  The last alternative of the `match` is never taken:
the guard has established that the stack holds at least two boards. -/
def undoMove (s : GameState) : GameState :=
  if s.moveHistory.length ≤ 1 ∨ s.undosRemaining ≤ 0 ∨ s.gameOver = true then s
  else
    match s.moveHistory with
    | top :: newTop :: rest =>
      { s with
        redoHistory := top :: s.redoHistory
        moveHistory := newTop :: rest
        board := newTop
        undosRemaining := s.undosRemaining - 1 }
    | _ => s

/-- `void redoMove()`.  The last alternative of the `match` is never taken:
the guard has established that the redo stack is not empty. -/
def redoMove (s : GameState) : GameState :=
  if s.redoHistory.isEmpty = true ∨ s.gameOver = true then s
  else
    match s.redoHistory with
    | top :: rest =>
      { s with board := top, moveHistory := top :: s.moveHistory, redoHistory := rest }
    | [] => s

/-- The first pair of loops of `checkGameState`: `marbleCount`. -/
def countMarbles (b : Board) : Option Int :=
  (loopRange BOARD_SIZE).foldlM
    (fun n1 r => (loopRange BOARD_SIZE).foldlM
      (fun n2 c =>
        match readCell b r c with
        | none => none
        | some v => some (if v = MARBLE then n2 + 1 else n2)) n1) 0

/-- The test `isValidMove(r, c, r - 2, c) || isValidMove(r, c, r + 2, c) ||
isValidMove(r, c, r, c - 2) || isValidMove(r, c, r, c + 2)` of
`checkGameState`, evaluated left to right with short circuit. -/
def probeMoves (b : Board) (r c : Int) : Option Bool :=
  match isValidMove b r c (r - 2) c with
  | none => none
  | some true => some true
  | some false =>
    match isValidMove b r c (r + 2) c with
    | none => none
    | some true => some true
    | some false =>
      match isValidMove b r c r (c - 2) with
      | none => none
      | some true => some true
      | some false => isValidMove b r c r (c + 2)

/-- The second pair of loops of `checkGameState`: `validMoveFound`.  A loop
whose condition contains `!validMoveFound` runs no further body once the flag
is set. -/
def findValidMove (b : Board) : Option Bool :=
  (loopRange BOARD_SIZE).foldlM
    (fun found1 r =>
      if found1 = true then some found1
      else (loopRange BOARD_SIZE).foldlM
        (fun found2 c =>
          if found2 = true then some found2
          else
            match readCell b r c with
            | none => none
            | some v =>
              if v = MARBLE then
                match probeMoves b r c with
                | none => none
                | some true => some true
                | some false => some found2
              else some found2) found1) false

/-- The condition `!CENTERWIN || board[BOARD_SIZE/2][BOARD_SIZE/2] == MARBLE`,
with short circuit. -/
def centerCondition (b : Board) : Option Bool :=
  if !CENTERWIN then pure true
  else do
    let v ← readCell b (BOARD_SIZE.tdiv 2) (BOARD_SIZE.tdiv 2)
    pure (decide (v = MARBLE))

/-- `void checkGameState()`. -/
def checkGameState (s : GameState) : Option GameState := do
  let marbleCount ← countMarbles s.board
  let centerOk ← if marbleCount = 1 then centerCondition s.board else pure false
  if marbleCount = 1 ∧ centerOk = true then
    pure { s with gameOver := true, gameWon := true }
  else
    let validMoveFound ← findValidMove s.board
    if !validMoveFound then
      pure { s with gameOver := true, gameLost := true }
    else pure s

/-- The game-logic part of `renderImGui` that runs every frame:
`if (!gameOver) checkGameState();`. -/
def frameCheck (s : GameState) : Option GameState :=
  if !s.gameOver then checkGameState s else pure s

/-- The select-or-move logic of `processMouseClick`, for the board position
`(row, col)` computed from the pointer coordinates. -/
def clickCell (s : GameState) (row col : Int) : Option GameState :=
  if s.selectedRow = -1 ∧ s.selectedCol = -1 then
    if row ≥ 0 ∧ row < BOARD_SIZE ∧ col ≥ 0 ∧ col < BOARD_SIZE then do
      let v ← readCell s.board row col
      if v = MARBLE then pure { s with selectedRow := row, selectedCol := col }
      else pure s
    else pure s
  else do
    let ok ← isValidMove s.board s.selectedRow s.selectedCol row col
    let s1 ← if ok then performMove s s.selectedRow s.selectedCol row col else pure s
    pure { s1 with selectedRow := -1, selectedCol := -1 }

/-- The Replay handler of `renderImGui` (the statements under
`// reset game state`). -/
def replay (s : GameState) : Option GameState := do
  let s1 ← initGameBoard s
  pure { s1 with
    gameOver := false
    gameWon := false
    gameLost := false
    undosRemaining := 3
    redoHistory := []
    moveHistory := [] }

/-- The state when the main loop starts: `initGameBoard()` on the initial
globals. -/
def programStart : Option GameState := initGameBoard globals

/-- The events that drive the game logic while the main loop runs. -/
inductive Cmd where
  | move (sr sc dr dc : Int)
  | undo
  | redo
  | click (row col : Int)
  | frame
  deriving DecidableEq, Repr

/-- The effect of one event. -/
def step (s : GameState) : Cmd → Option GameState
  | .move sr sc dr dc => performMove s sr sc dr dc
  | .undo => some (undoMove s)
  | .redo => some (redoMove s)
  | .click row col => clickCell s row col
  | .frame => frameCheck s

/-- The effect of a sequence of events. -/
def run (s : GameState) (cmds : List Cmd) : Option GameState :=
  cmds.foldlM step s

/-- The states the program reaches from its start by `performMove`,
`undoMove`, `redoMove`, clicks on cells and per-frame outcome checks. -/
def Reachable (s : GameState) : Prop :=
  ∃ s0 cmds, programStart = some s0 ∧ run s0 cmds = some s

/-! ## Definitions that follow the words of the specification -/

/-- The legality conditions of the specification (4.2): both positions lie in
`[0, N)`, the move is an orthogonal jump of exactly two cells, the source is
`MARBLE`, the destination is `EMPTY` and the midpoint is `MARBLE`.  For
positions on the grid the sums are not negative, so that the division here
and the truncating division of the code give the same midpoint. -/
def LegalMove (b : Board) (sr sc dr dc : Int) : Prop :=
  (0 ≤ sr ∧ sr < BOARD_SIZE ∧ 0 ≤ sc ∧ sc < BOARD_SIZE ∧
    0 ≤ dr ∧ dr < BOARD_SIZE ∧ 0 ≤ dc ∧ dc < BOARD_SIZE) ∧
  (((dr - sr).natAbs = 2 ∧ sc = dc) ∨ ((dc - sc).natAbs = 2 ∧ sr = dr)) ∧
  readCell b sr sc = some MARBLE ∧
  readCell b dr dc = some EMPTY ∧
  readCell b ((sr + dr) / 2) ((sc + dc) / 2) = some MARBLE

instance (b : Board) (sr sc dr dc : Int) : Decidable (LegalMove b sr sc dr dc) := by
  unfold LegalMove; infer_instance

/-- The midpoint of a move, `((sr + dr) / 2, (sc + dc) / 2)`. -/
def midpoint (sr sc dr dc : Int) : Int × Int :=
  ((sr + dr) / 2, (sc + dc) / 2)

/-- The cross-shaped starting layout of the 7 x 7 game, written out: a cell is
`INVALID` when both its row and its column lie in `{0, 1, 5, 6}`, the center
`(3, 3)` is `EMPTY`, every other cell is `MARBLE`. -/
def classicBoard : Board :=
  [[INVALID, INVALID, MARBLE, MARBLE, MARBLE, INVALID, INVALID],
   [INVALID, INVALID, MARBLE, MARBLE, MARBLE, INVALID, INVALID],
   [MARBLE, MARBLE, MARBLE, MARBLE, MARBLE, MARBLE, MARBLE],
   [MARBLE, MARBLE, MARBLE, EMPTY, MARBLE, MARBLE, MARBLE],
   [MARBLE, MARBLE, MARBLE, MARBLE, MARBLE, MARBLE, MARBLE],
   [INVALID, INVALID, MARBLE, MARBLE, MARBLE, INVALID, INVALID],
   [INVALID, INVALID, MARBLE, MARBLE, MARBLE, INVALID, INVALID]]

/-- The number of cells of a board in the state `v`. -/
def cellCount (v : CellState) (b : Board) : Nat :=
  (b.map (List.count v)).sum

/-- The number of marbles a board holds. -/
def marbles (b : Board) : Nat :=
  cellCount MARBLE b

/-- A legal move exists somewhere on the board. -/
def HasLegalMove (b : Board) : Prop :=
  ∃ sr sc dr dc : Int, isValidMove b sr sc dr dc = some true

/-- The marble at `(r, c)` is isolated: none of its four two-step orthogonal
neighbours is the destination of a legal move. -/
def Isolated (b : Board) (r c : Int) : Prop :=
  ¬LegalMove b r c (r - 2) c ∧ ¬LegalMove b r c (r + 2) c ∧
  ¬LegalMove b r c r (c - 2) ∧ ¬LegalMove b r c r (c + 2)

instance (b : Board) (r c : Int) : Decidable (Isolated b r c) := by
  unfold Isolated; infer_instance

/-- The marble-holding condition of one cell, as a number. -/
def marbleAt (b : Board) (r c : Int) : Nat :=
  if readCell b r c = some MARBLE then 1 else 0

/-- A move starts at the cell `(r, c)`: it holds a marble that is not
isolated. -/
def movableAt (b : Board) (r c : Int) : Bool :=
  decide (readCell b r c = some MARBLE ∧ ¬Isolated b r c)

/-- The state in which the main loop starts, written out: the starting layout
on the board and as the only entry of the undo stack. -/
def startState : GameState :=
  { globals with board := classicBoard, moveHistory := [classicBoard] }

/-- The board has the shape and the `INVALID` cells of the starting layout. -/
def HasLayout (b : Board) : Prop :=
  WellFormed b ∧
    ∀ r c, readCell b r c = some INVALID ↔ readCell classicBoard r c = some INVALID

/-- No cell is selected: `selectedRow == -1 && selectedCol == -1`. -/
def NoSelection (s : GameState) : Prop :=
  s.selectedRow = -1 ∧ s.selectedCol = -1

/-- The selected position lies on the grid. -/
def SelectionInRange (s : GameState) : Prop :=
  0 ≤ s.selectedRow ∧ s.selectedRow < BOARD_SIZE ∧
    0 ≤ s.selectedCol ∧ s.selectedCol < BOARD_SIZE

/-- The cell of the current board at the selected position. -/
def selectedCell (s : GameState) : Option CellState :=
  readCell s.board s.selectedRow s.selectedCol

/-- The invariant of the reachable states. -/
structure Inv (s : GameState) : Prop where
  board : HasLayout s.board
  undoStack : ∀ b ∈ s.moveHistory, HasLayout b
  redoStack : ∀ b ∈ s.redoHistory, HasLayout b
  top : s.moveHistory.head? = some s.board
  budget : 0 ≤ s.undosRemaining ∧ s.undosRemaining ≤ 3
  selection : NoSelection s ∨
    (SelectionInRange s ∧ (selectedCell s = some MARBLE ∨ selectedCell s = some EMPTY))

/-- Every board of the state, the current one and the snapshots on the two
stacks, has the shape of the grid. -/
def WellFormedState (s : GameState) : Prop :=
  WellFormed s.board ∧ (∀ b ∈ s.moveHistory, WellFormed b) ∧
    (∀ b ∈ s.redoHistory, WellFormed b)

instance (s : GameState) : Decidable (WellFormedState s) := by
  unfold WellFormedState; infer_instance

/-- The number of `undoMove` calls that changed the state in the run of
`cmds` from `s`. -/
def successfulUndos (s : GameState) : List Cmd → Option Nat
  | [] => some 0
  | cmd :: rest =>
    match step s cmd with
    | none => none
    | some s1 =>
      match successfulUndos s1 rest with
      | none => none
      | some n => some (if cmd = Cmd.undo ∧ s1 ≠ s then n + 1 else n)

/-- A game that ends without a legal move: six jumps from the
starting layout. -/
def deadEndGame : List Cmd :=
  [Cmd.move 1 3 3 3, Cmd.move 4 3 2 3, Cmd.move 3 1 3 3, Cmd.move 3 4 3 2,
   Cmd.move 3 6 3 4, Cmd.move 6 3 4 3]

/-- The state after the opening jump from `(3, 1)` to `(3, 3)`. -/
def openingState : GameState :=
  (performMove startState 3 1 3 3).getD startState

/-- The state after the dead-end game, the frame that detects the loss, and a
click on the marble at `(2, 3)`: the state in which Replay is then pressed. -/
def deadEndState : GameState :=
  (run startState (deadEndGame ++ [Cmd.frame, Cmd.click 2 3])).getD startState

/-- The state after the opening jump made with two clicks, a click on the
marble that has landed on `(3, 3)`, and an `undoMove`. -/
def staleSelectionState : GameState :=
  (run startState [Cmd.click 3 1, Cmd.click 3 3, Cmd.click 3 3, Cmd.undo]).getD startState

/-- Four jumps followed by three `undoMove` calls. -/
def threeUndosState : GameState :=
  (run startState [Cmd.move 1 3 3 3, Cmd.move 4 3 2 3, Cmd.move 3 1 3 3, Cmd.move 3 4 3 2,
    Cmd.undo, Cmd.undo, Cmd.undo]).getD startState

/-! ## Reading and writing cells of a well-formed board -/

theorem BOARD_SIZE_eq : BOARD_SIZE = 7 := rfl

theorem readCell_of_wf {b : Board} (hb : WellFormed b) {r c : Int}
    (hr0 : 0 ≤ r) (hr : r < BOARD_SIZE) (hc0 : 0 ≤ c) (hc : c < BOARD_SIZE) :
    ∃ v, readCell b r c = some v := by
  obtain ⟨hlen, hrows⟩ := hb
  rw [BOARD_SIZE_eq] at hlen hr hc
  have hrl : r.toNat < b.length := by omega
  have hrow := hrows _ (List.getElem_mem hrl)
  rw [BOARD_SIZE_eq] at hrow
  have hcl : c.toNat < (b[r.toNat]).length := by omega
  refine ⟨(b[r.toNat])[c.toNat], ?_⟩
  simp [readCell, hr0, hc0, List.getElem?_eq_getElem hrl, List.getElem?_eq_getElem hcl]

theorem readCell_range {b : Board} (hb : WellFormed b) {r c : Int} {v : CellState}
    (h : readCell b r c = some v) :
    0 ≤ r ∧ r < BOARD_SIZE ∧ 0 ≤ c ∧ c < BOARD_SIZE := by
  obtain ⟨hlen, hrows⟩ := hb
  rw [BOARD_SIZE_eq] at hlen ⊢
  unfold readCell at h
  split_ifs at h with h0
  obtain ⟨hr0, hc0⟩ := h0
  cases hrow : b[r.toNat]? with
  | none => simp [hrow] at h
  | some row =>
    simp only [hrow] at h
    obtain ⟨hrl, hrow_eq⟩ := List.getElem?_eq_some.mp hrow
    obtain ⟨hcl, -⟩ := List.getElem?_eq_some.mp h
    have hmem : row ∈ b := hrow_eq ▸ List.getElem_mem hrl
    have := hrows row hmem
    rw [BOARD_SIZE_eq] at this
    omega

theorem writeCell_of_wf {b : Board} (hb : WellFormed b) {r c : Int} (v : CellState)
    (hr0 : 0 ≤ r) (hr : r < BOARD_SIZE) (hc0 : 0 ≤ c) (hc : c < BOARD_SIZE) :
    ∃ b2, writeCell b r c v = some b2 ∧ WellFormed b2 ∧
      ∀ r2 c2, readCell b2 r2 c2 = if r2 = r ∧ c2 = c then some v else readCell b r2 c2 := by
  obtain ⟨hlen, hrows⟩ := hb
  rw [BOARD_SIZE_eq] at hlen hr hc
  have hrl : r.toNat < b.length := by omega
  have hrow := hrows _ (List.getElem_mem hrl)
  rw [BOARD_SIZE_eq] at hrow
  have hcl : c.toNat < (b[r.toNat]).length := by omega
  refine ⟨b.set r.toNat ((b[r.toNat]).set c.toNat v), ?_, ⟨?_, ?_⟩, ?_⟩
  · simp [writeCell, hr0, hc0, List.getElem?_eq_getElem hrl, hcl]
  · rw [List.length_set, BOARD_SIZE_eq]; exact hlen
  · intro row hmem
    rcases List.mem_or_eq_of_mem_set hmem with h | h
    · exact hrows row h
    · rw [h, List.length_set, BOARD_SIZE_eq]; exact hrow
  · intro r2 c2
    unfold readCell
    by_cases h0 : 0 ≤ r2 ∧ 0 ≤ c2
    · obtain ⟨hr2, hc2⟩ := h0
      by_cases hre : r2 = r
      · subst hre
        by_cases hce : c2 = c
        · subst hce
          simp [hr2, hc2, List.getElem?_set, hrl, hcl]
        · have hne : c.toNat ≠ c2.toNat := by omega
          simp [hr2, hc2, hce, List.getElem?_set, hrl, hne, List.getElem?_eq_getElem hrl]
      · have hne : r.toNat ≠ r2.toNat := by omega
        simp [hr2, hc2, hre, List.getElem?_set, hne]
    · have hne : ¬(r2 = r ∧ c2 = c) := by
        rintro ⟨rfl, rfl⟩; exact h0 ⟨hr0, hc0⟩
      simp [h0, hne]

/-! ## The move validator -/

theorem tdiv_two_eq {a : Int} (h : 0 ≤ a) : a.tdiv 2 = a / 2 :=
  Int.tdiv_eq_ediv h (by decide)

theorem isValidMove_spec {b : Board} (hb : WellFormed b) (sr sc dr dc : Int) :
    ∃ res, isValidMove b sr sc dr dc = some res ∧ (res = true ↔ LegalMove b sr sc dr dc) := by
  unfold isValidMove LegalMove
  by_cases hrange : sr < 0 ∨ sr ≥ BOARD_SIZE ∨ sc < 0 ∨ sc ≥ BOARD_SIZE ∨
      dr < 0 ∨ dr ≥ BOARD_SIZE ∨ dc < 0 ∨ dc ≥ BOARD_SIZE
  · rw [if_pos hrange]
    refine ⟨false, rfl, ?_⟩
    constructor
    · intro h; cases h
    · rintro ⟨hin, -⟩; exfalso; omega
  · rw [if_neg hrange]
    have hin : 0 ≤ sr ∧ sr < BOARD_SIZE ∧ 0 ≤ sc ∧ sc < BOARD_SIZE ∧
        0 ≤ dr ∧ dr < BOARD_SIZE ∧ 0 ≤ dc ∧ dc < BOARD_SIZE := by omega
    obtain ⟨h1, h2, h3, h4, h5, h6, h7, h8⟩ := hin
    by_cases hshape : ((dr - sr).natAbs = 2 ∧ sc = dc) ∨ ((dc - sc).natAbs = 2 ∧ sr = dr)
    · rw [if_neg (not_not.mpr hshape)]
      have hmr : (sr + dr).tdiv 2 = (sr + dr) / 2 := tdiv_two_eq (by omega)
      have hmc : (sc + dc).tdiv 2 = (sc + dc) / 2 := tdiv_two_eq (by omega)
      simp only [hmr, hmc]
      obtain ⟨src, hsrc⟩ := readCell_of_wf hb h1 h2 h3 h4
      obtain ⟨dst, hdst⟩ := readCell_of_wf hb h5 h6 h7 h8
      have h9 : 0 ≤ (sr + dr) / 2 ∧ (sr + dr) / 2 < BOARD_SIZE := by
        rw [BOARD_SIZE_eq] at *; omega
      have h10 : 0 ≤ (sc + dc) / 2 ∧ (sc + dc) / 2 < BOARD_SIZE := by
        rw [BOARD_SIZE_eq] at *; omega
      obtain ⟨mid, hmid⟩ := readCell_of_wf hb h9.1 h9.2 h10.1 h10.2
      rw [hsrc, hdst, hmid]
      cases src <;> cases dst <;> cases mid <;>
        simp [h1, h2, h3, h4, h5, h6, h7, h8, hshape]
    · rw [if_pos hshape]
      refine ⟨false, rfl, ?_⟩
      constructor
      · intro h; cases h
      · rintro ⟨-, hs, -⟩; exact absurd hs hshape

theorem isValidMove_true_iff {b : Board} (hb : WellFormed b) (sr sc dr dc : Int) :
    isValidMove b sr sc dr dc = some true ↔ LegalMove b sr sc dr dc := by
  obtain ⟨res, hres, hiff⟩ := isValidMove_spec hb sr sc dr dc
  rw [hres, ← hiff]; simp

theorem isValidMove_false_iff {b : Board} (hb : WellFormed b) (sr sc dr dc : Int) :
    isValidMove b sr sc dr dc = some false ↔ ¬LegalMove b sr sc dr dc := by
  obtain ⟨res, hres, hiff⟩ := isValidMove_spec hb sr sc dr dc
  rw [hres, ← hiff]; simp

/-! ## The move executor -/

theorem count_set_add {α : Type} [DecidableEq α] (a : α) :
    ∀ (l : List α) (j : Nat) (old v : α), l[j]? = some old →
      (l.set j v).count a + (if old = a then 1 else 0)
        = l.count a + (if v = a then 1 else 0) := by
  intro l
  induction l with
  | nil => intro j old v h; simp at h
  | cons x xs ih =>
    intro j old v h
    cases j with
    | zero =>
      simp only [List.getElem?_cons_zero, Option.some.injEq] at h
      subst h
      simp only [List.set_cons_zero, List.count_cons, beq_iff_eq]
      omega
    | succ k =>
      simp only [List.getElem?_cons_succ] at h
      have := ih k old v h
      simp only [List.set_cons_succ, List.count_cons]
      omega

theorem sum_map_set_add {α : Type} (f : α → Nat) :
    ∀ (l : List α) (i : Nat) (x y : α), l[i]? = some x →
      ((l.set i y).map f).sum + f x = (l.map f).sum + f y := by
  intro l
  induction l with
  | nil => intro i x y h; simp at h
  | cons z zs ih =>
    intro i x y h
    cases i with
    | zero =>
      simp only [List.getElem?_cons_zero, Option.some.injEq] at h
      subst h
      simp only [List.set_cons_zero, List.map_cons, List.sum_cons]
      omega
    | succ k =>
      simp only [List.getElem?_cons_succ] at h
      have := ih k x y h
      simp only [List.set_cons_succ, List.map_cons, List.sum_cons]
      omega

theorem marbles_writeCell {b b2 : Board} {r c : Int} {old v : CellState}
    (hw : writeCell b r c v = some b2) (hr : readCell b r c = some old) :
    marbles b2 + (if old = MARBLE then 1 else 0)
      = marbles b + (if v = MARBLE then 1 else 0) := by
  unfold writeCell at hw
  unfold readCell at hr
  split_ifs at hw hr with h0
  cases hrow : b[r.toNat]? with
  | none => simp [hrow] at hr
  | some row =>
    simp only [hrow] at hw hr
    split_ifs at hw with hlt
    simp only [Option.some.injEq] at hw
    subst hw
    have h1 := sum_map_set_add (List.count MARBLE) b r.toNat row (row.set c.toNat v) hrow
    have h2 := count_set_add MARBLE row c.toNat old v hr
    unfold marbles cellCount
    omega

theorem performMove_legal {s : GameState} (hb : WellFormed s.board) {sr sc dr dc : Int}
    (h : LegalMove s.board sr sc dr dc) :
    ∃ b2, performMove s sr sc dr dc
        = some { s with board := b2, moveHistory := b2 :: s.moveHistory, redoHistory := [] } ∧
      WellFormed b2 ∧
      (∀ r c, readCell b2 r c =
        if r = dr ∧ c = dc then some MARBLE
        else if r = (sr + dr) / 2 ∧ c = (sc + dc) / 2 then some EMPTY
        else if r = sr ∧ c = sc then some EMPTY
        else readCell s.board r c) ∧
      marbles b2 + 1 = marbles s.board := by
  have hvalid := (isValidMove_true_iff hb sr sc dr dc).mpr h
  obtain ⟨⟨h1, h2, h3, h4, h5, h6, h7, h8⟩, hshape, hsrc, hdst, hmid⟩ := h
  have hmr : (sr + dr).tdiv 2 = (sr + dr) / 2 := tdiv_two_eq (by omega)
  have hmc : (sc + dc).tdiv 2 = (sc + dc) / 2 := tdiv_two_eq (by omega)
  have h9 : 0 ≤ (sr + dr) / 2 ∧ (sr + dr) / 2 < BOARD_SIZE := by
    rw [BOARD_SIZE_eq] at *; omega
  have h10 : 0 ≤ (sc + dc) / 2 ∧ (sc + dc) / 2 < BOARD_SIZE := by
    rw [BOARD_SIZE_eq] at *; omega
  have hne1 : ¬((sr + dr) / 2 = sr ∧ (sc + dc) / 2 = sc) := by omega
  have hne2 : ¬(dr = (sr + dr) / 2 ∧ dc = (sc + dc) / 2) := by omega
  have hne3 : ¬(dr = sr ∧ dc = sc) := by omega
  obtain ⟨b1, hw1, hwf1, hrd1⟩ := writeCell_of_wf hb EMPTY h1 h2 h3 h4
  obtain ⟨b2, hw2, hwf2, hrd2⟩ := writeCell_of_wf hwf1 EMPTY h9.1 h9.2 h10.1 h10.2
  obtain ⟨b3, hw3, hwf3, hrd3⟩ := writeCell_of_wf hwf2 MARBLE h5 h6 h7 h8
  refine ⟨b3, ?_, hwf3, ?_, ?_⟩
  · simp [performMove, hvalid, hw1, hmr, hmc, hw2, hw3]
  · intro r c
    rw [hrd3, hrd2, hrd1]
  · have hmid1 : readCell b1 ((sr + dr) / 2) ((sc + dc) / 2) = some MARBLE := by
      rw [hrd1, if_neg hne1]; exact hmid
    have hdst2 : readCell b2 dr dc = some EMPTY := by
      rw [hrd2, if_neg hne2, hrd1, if_neg hne3]; exact hdst
    have e1 := marbles_writeCell hw1 hsrc
    have e2 := marbles_writeCell hw2 hmid1
    have e3 := marbles_writeCell hw3 hdst2
    simp at e1 e2 e3
    omega

theorem performMove_illegal {s : GameState} {sr sc dr dc : Int}
    (h : isValidMove s.board sr sc dr dc = some false) :
    performMove s sr sc dr dc = some s := by
  simp [performMove, h]

/-! ## The layout generator -/

theorem board_ext {b1 b2 : Board} (h1 : WellFormed b1) (h2 : WellFormed b2)
    (h : ∀ r c, readCell b1 r c = readCell b2 r c) : b1 = b2 := by
  obtain ⟨hl1, hr1⟩ := h1
  obtain ⟨hl2, hr2⟩ := h2
  rw [BOARD_SIZE_eq] at hl1 hl2
  apply List.ext_getElem?
  intro n
  by_cases hn : n < 7
  · have hn1 : n < b1.length := by omega
    have hn2 : n < b2.length := by omega
    rw [List.getElem?_eq_getElem hn1, List.getElem?_eq_getElem hn2]
    congr 1
    have hlen1 := hr1 _ (List.getElem_mem hn1)
    have hlen2 := hr2 _ (List.getElem_mem hn2)
    rw [BOARD_SIZE_eq] at hlen1 hlen2
    apply List.ext_getElem?
    intro m
    have := h (Int.ofNat n) (Int.ofNat m)
    simpa [readCell, List.getElem?_eq_getElem hn1, List.getElem?_eq_getElem hn2] using this
  · rw [List.getElem?_eq_none (by omega), List.getElem?_eq_none (by omega)]

theorem writeRow_spec (f : Int → Int → CellState) (r : Int)
    (hr0 : 0 ≤ r) (hr : r < BOARD_SIZE) :
    ∀ (cs : List Int), (∀ c ∈ cs, 0 ≤ c ∧ c < BOARD_SIZE) → ∀ b : Board, WellFormed b →
      ∃ b2, cs.foldlM (fun b1 c => writeCell b1 r c (f r c)) b = some b2 ∧ WellFormed b2 ∧
        ∀ r2 c2, readCell b2 r2 c2
          = if r2 = r ∧ c2 ∈ cs then some (f r c2) else readCell b r2 c2 := by
  intro cs
  induction cs with
  | nil => intro _ b hb; exact ⟨b, rfl, hb, by simp⟩
  | cons c cs ih =>
    intro hcs b hb
    have hc := hcs c (List.mem_cons_self c cs)
    obtain ⟨b1, hw1, hwf1, hrd1⟩ := writeCell_of_wf hb (f r c) hr0 hr hc.1 hc.2
    obtain ⟨b2, hw2, hwf2, hrd2⟩ :=
      ih (fun x hx => hcs x (List.mem_cons_of_mem c hx)) b1 hwf1
    refine ⟨b2, ?_, hwf2, ?_⟩
    · simp [List.foldlM_cons, hw1, hw2]
    · intro r2 c2
      rw [hrd2, hrd1]
      by_cases hre : r2 = r
      · by_cases hmem : c2 ∈ cs
        · simp [hre, hmem]
        · by_cases hce : c2 = c
          · simp [hre, hce]
          · simp [hre, hmem, hce]
      · simp [hre]

theorem writeRows_spec (f : Int → Int → CellState)
    (cs : List Int) (hcs : ∀ c ∈ cs, 0 ≤ c ∧ c < BOARD_SIZE) :
    ∀ (rs : List Int), (∀ r ∈ rs, 0 ≤ r ∧ r < BOARD_SIZE) → ∀ b : Board, WellFormed b →
      ∃ b2, rs.foldlM
          (fun b1 r => cs.foldlM (fun b2 c => writeCell b2 r c (f r c)) b1) b = some b2 ∧
        WellFormed b2 ∧
        ∀ r2 c2, readCell b2 r2 c2
          = if r2 ∈ rs ∧ c2 ∈ cs then some (f r2 c2) else readCell b r2 c2 := by
  intro rs
  induction rs with
  | nil => intro _ b hb; exact ⟨b, rfl, hb, by simp⟩
  | cons r rs ih =>
    intro hrs b hb
    have hr := hrs r (List.mem_cons_self r rs)
    obtain ⟨b1, hw1, hwf1, hrd1⟩ := writeRow_spec f r hr.1 hr.2 cs hcs b hb
    obtain ⟨b2, hw2, hwf2, hrd2⟩ :=
      ih (fun x hx => hrs x (List.mem_cons_of_mem r hx)) b1 hwf1
    refine ⟨b2, ?_, hwf2, ?_⟩
    · simp only [List.foldlM_cons, hw1, Option.bind_eq_bind, Option.some_bind, hw2]
    · intro r2 c2
      rw [hrd2, hrd1]
      by_cases hmem : r2 ∈ rs
      · by_cases hc : c2 ∈ cs
        · simp [hmem, hc]
        · simp [hc]
      · by_cases hre : r2 = r
        · subst hre; simp [hmem]
        · simp [hmem, hre]

theorem mem_loopRange {n x : Int} : x ∈ loopRange n ↔ 0 ≤ x ∧ x < n := by
  unfold loopRange
  simp only [List.mem_map, List.mem_range]
  constructor
  · rintro ⟨k, hk, rfl⟩
    have : (Int.ofNat k) = (k : Int) := rfl
    omega
  · rintro ⟨h0, hn⟩
    refine ⟨x.toNat, by omega, ?_⟩
    have : (Int.ofNat x.toNat) = (x.toNat : Int) := rfl
    omega

theorem classicBoard_wf : WellFormed classicBoard := by decide

theorem initBoard_of_wf {b : Board} (hb : WellFormed b) :
    ∃ b1, initLoops b = some b1 ∧
      writeCell b1 (BOARD_SIZE.tdiv 2) (BOARD_SIZE.tdiv 2) EMPTY = some classicBoard := by
  obtain ⟨b1, hl, hwf1, hrd1⟩ :=
    writeRows_spec (layoutCell BOARD_SIZE) (loopRange BOARD_SIZE)
      (fun c hc => mem_loopRange.mp hc) (loopRange BOARD_SIZE)
      (fun r hr => mem_loopRange.mp hr) b hb
  refine ⟨b1, hl, ?_⟩
  have hmid : BOARD_SIZE.tdiv 2 = 3 := by decide
  rw [hmid]
  obtain ⟨b2, hw, hwf2, hrd2⟩ :=
    writeCell_of_wf hwf1 EMPTY (r := 3) (c := 3) (by decide) (by decide) (by decide) (by decide)
  rw [hw]
  congr 1
  apply board_ext hwf2 classicBoard_wf
  intro r c
  rw [hrd2, hrd1]
  by_cases hr : 0 ≤ r ∧ r < BOARD_SIZE
  · by_cases hc : 0 ≤ c ∧ c < BOARD_SIZE
    · have hin : r ∈ loopRange BOARD_SIZE ∧ c ∈ loopRange BOARD_SIZE :=
        ⟨mem_loopRange.mpr hr, mem_loopRange.mpr hc⟩
      simp only [if_pos hin]
      rw [BOARD_SIZE_eq] at hr hc
      obtain ⟨hr0, hr7⟩ := hr
      obtain ⟨hc0, hc7⟩ := hc
      interval_cases r <;> interval_cases c <;> decide
    · have hnin : ¬(r ∈ loopRange BOARD_SIZE ∧ c ∈ loopRange BOARD_SIZE) :=
        fun h => hc (mem_loopRange.mp h.2)
      have h1 : readCell b r c = none := by
        cases hx : readCell b r c with
        | none => rfl
        | some v => exact absurd (readCell_range hb hx).2.2 hc
      have h2 : readCell classicBoard r c = none := by
        cases hx : readCell classicBoard r c with
        | none => rfl
        | some v => exact absurd (readCell_range classicBoard_wf hx).2.2 hc
      have h3 : ¬(r = 3 ∧ c = 3) := by
        rintro ⟨-, rfl⟩; exact hc (by decide)
      simp only [if_neg h3, if_neg hnin, h1, h2]
  · have hnin : ¬(r ∈ loopRange BOARD_SIZE ∧ c ∈ loopRange BOARD_SIZE) :=
      fun h => hr (mem_loopRange.mp h.1)
    have h1 : readCell b r c = none := by
      cases hx : readCell b r c with
      | none => rfl
      | some v =>
        have := readCell_range hb hx
        exact absurd ⟨this.1, this.2.1⟩ hr
    have h2 : readCell classicBoard r c = none := by
      cases hx : readCell classicBoard r c with
      | none => rfl
      | some v =>
        have := readCell_range classicBoard_wf hx
        exact absurd ⟨this.1, this.2.1⟩ hr
    have h3 : ¬(r = 3 ∧ c = 3) := by
      rintro ⟨rfl, -⟩; exact hr (by decide)
    simp only [if_neg h3, if_neg hnin, h1, h2]

theorem initGameBoard_of_wf {s : GameState} (hb : WellFormed s.board) :
    initGameBoard s
      = some { s with board := classicBoard, moveHistory := classicBoard :: s.moveHistory } := by
  obtain ⟨b1, h1, h2⟩ := initBoard_of_wf hb
  simp [initGameBoard, h1, h2]

/-! ## The game state evaluator -/

theorem isValidMove_eq_decide {b : Board} (hb : WellFormed b) (sr sc dr dc : Int) :
    isValidMove b sr sc dr dc = some (decide (LegalMove b sr sc dr dc)) := by
  by_cases h : LegalMove b sr sc dr dc
  · rw [(isValidMove_true_iff hb sr sc dr dc).mpr h]; simp [h]
  · rw [(isValidMove_false_iff hb sr sc dr dc).mpr h]; simp [h]

theorem probeMoves_eq_decide {b : Board} (hb : WellFormed b) (r c : Int) :
    probeMoves b r c = some (decide (¬Isolated b r c)) := by
  unfold probeMoves Isolated
  rw [isValidMove_eq_decide hb, isValidMove_eq_decide hb, isValidMove_eq_decide hb,
    isValidMove_eq_decide hb]
  by_cases h1 : LegalMove b r c (r - 2) c
  · simp [h1]
  · by_cases h2 : LegalMove b r c (r + 2) c
    · simp [h1, h2]
    · by_cases h3 : LegalMove b r c r (c - 2)
      · simp [h1, h2, h3]
      · simp [h1, h2, h3]

theorem foldlM_any {α : Type} (f : Bool → α → Option Bool) (g : α → Bool) :
    ∀ l : List α, (∀ x ∈ l, ∀ acc, f acc x = some (acc || g x)) →
      ∀ acc, l.foldlM f acc = some (acc || l.any g) := by
  intro l
  induction l with
  | nil => intro _ acc; simp
  | cons x xs ih =>
    intro hf acc
    rw [List.foldlM_cons, hf x (List.mem_cons_self x xs) acc]
    simp only [Option.bind_eq_bind, Option.some_bind]
    rw [ih (fun y hy => hf y (List.mem_cons_of_mem x hy))]
    simp [Bool.or_assoc]

theorem foldlM_count {α : Type} (f : Int → α → Option Int) (g : α → Nat) :
    ∀ l : List α, (∀ x ∈ l, ∀ n, f n x = some (n + (g x : Int))) →
      ∀ n, l.foldlM f n = some (n + ((l.map g).sum : Nat)) := by
  intro l
  induction l with
  | nil => intro _ n; simp
  | cons x xs ih =>
    intro hf n
    rw [List.foldlM_cons, hf x (List.mem_cons_self x xs) n]
    simp only [Option.bind_eq_bind, Option.some_bind]
    rw [ih (fun y hy => hf y (List.mem_cons_of_mem x hy))]
    simp only [List.map_cons, List.sum_cons, Nat.cast_add, Option.some.injEq]
    omega

theorem countMarbles_eq_sum {b : Board} (hb : WellFormed b) :
    countMarbles b = some ((((loopRange BOARD_SIZE).map (fun r =>
      ((loopRange BOARD_SIZE).map (fun c => marbleAt b r c)).sum)).sum : Nat) : Int) := by
  unfold countMarbles
  rw [foldlM_count _ (fun r => ((loopRange BOARD_SIZE).map (fun c => marbleAt b r c)).sum)]
  · simp
  · intro r hr n
    apply foldlM_count _ (fun c => marbleAt b r c)
    intro c hc m
    obtain ⟨v, hv⟩ := readCell_of_wf hb (mem_loopRange.mp hr).1 (mem_loopRange.mp hr).2
      (mem_loopRange.mp hc).1 (mem_loopRange.mp hc).2
    simp only [hv, marbleAt, Option.some.injEq]
    split_ifs <;> simp

theorem findValidMove_eq_any {b : Board} (hb : WellFormed b) :
    findValidMove b = some ((loopRange BOARD_SIZE).any (fun r =>
      (loopRange BOARD_SIZE).any (fun c => movableAt b r c))) := by
  unfold findValidMove
  rw [foldlM_any _ (fun r => (loopRange BOARD_SIZE).any (fun c => movableAt b r c))]
  · simp
  · intro r hr acc
    cases acc with
    | true => simp
    | false =>
      simp only [Bool.false_eq_true, if_false, Bool.false_or]
      rw [foldlM_any _ (fun c => movableAt b r c)]
      · simp
      · intro c hc acc
        cases acc with
        | true => simp
        | false =>
          obtain ⟨v, hv⟩ := readCell_of_wf hb (mem_loopRange.mp hr).1 (mem_loopRange.mp hr).2
            (mem_loopRange.mp hc).1 (mem_loopRange.mp hc).2
          simp only [Bool.false_eq_true, if_false, hv, probeMoves_eq_decide hb, movableAt,
            Bool.false_or, Option.some.injEq]
          by_cases hm : v = MARBLE
          · by_cases hi : Isolated b r c
            · simp [hm, hi]
            · simp [hm, hi]
          · simp [hm]

theorem range_sum_getElem? {β : Type} (F : Option β → Nat) :
    ∀ l : List β,
      ((List.range l.length).map (fun i => F l[i]?)).sum
        = (l.map (fun x => F (some x))).sum := by
  intro l
  induction l with
  | nil => simp
  | cons x xs ih =>
    simp only [List.length_cons, List.range_succ_eq_map, List.map_cons, List.sum_cons,
      List.getElem?_cons_zero, List.map_map, Function.comp_def, List.getElem?_cons_succ]
    rw [ih]

theorem count_eq_sum_map (row : List CellState) :
    row.count MARBLE = (row.map (fun x => if some x = some MARBLE then 1 else 0)).sum := by
  induction row with
  | nil => simp
  | cons x xs ih =>
    simp only [List.count_cons, List.map_cons, List.sum_cons, ih, beq_iff_eq,
      Option.some.injEq]
    omega

theorem readCell_ofNat (b : Board) (i j : Nat) :
    readCell b (Int.ofNat i) (Int.ofNat j)
      = match b[i]? with
        | some row => row[j]?
        | none => none := by
  unfold readCell
  have h : (0 : Int) ≤ Int.ofNat i ∧ (0 : Int) ≤ Int.ofNat j :=
    ⟨Int.ofNat_nonneg i, Int.ofNat_nonneg j⟩
  rw [if_pos h]
  rfl

theorem sum_marbleAt_eq {b : Board} (hb : WellFormed b) :
    ((loopRange BOARD_SIZE).map (fun r =>
      ((loopRange BOARD_SIZE).map (fun c => marbleAt b r c)).sum)).sum = marbles b := by
  obtain ⟨hlen, hrows⟩ := hb
  rw [BOARD_SIZE_eq] at hlen
  have hl : loopRange BOARD_SIZE = (List.range 7).map Int.ofNat := rfl
  have hlen7 : b.length = 7 := by omega
  rw [hl]
  simp only [List.map_map, Function.comp_def, marbleAt, readCell_ofNat]
  have key := range_sum_getElem?
    (fun o : Option (List CellState) => ((List.range 7).map (fun j =>
      if (match o with
          | some row => row[j]?
          | none => none) = some MARBLE then 1 else 0)).sum) b
  rw [hlen7] at key
  rw [key]
  unfold marbles cellCount
  congr 1
  apply List.map_congr_left
  intro row hrow
  have hrl := hrows row hrow
  rw [BOARD_SIZE_eq] at hrl
  have hrl7 : row.length = 7 := by omega
  have key2 := range_sum_getElem?
    (fun o : Option CellState => if o = some MARBLE then 1 else 0) row
  rw [hrl7] at key2
  simp only []
  rw [key2, count_eq_sum_map]

theorem countMarbles_eq {b : Board} (hb : WellFormed b) :
    countMarbles b = some ((marbles b : Nat) : Int) := by
  rw [countMarbles_eq_sum hb, sum_marbleAt_eq hb]

theorem legal_of_not_isolated {b : Board} {r c : Int} (h : ¬Isolated b r c) :
    ∃ dr dc, LegalMove b r c dr dc := by
  unfold Isolated at h
  by_cases h1 : LegalMove b r c (r - 2) c
  · exact ⟨_, _, h1⟩
  · by_cases h2 : LegalMove b r c (r + 2) c
    · exact ⟨_, _, h2⟩
    · by_cases h3 : LegalMove b r c r (c - 2)
      · exact ⟨_, _, h3⟩
      · by_cases h4 : LegalMove b r c r (c + 2)
        · exact ⟨_, _, h4⟩
        · exact absurd ⟨h1, h2, h3, h4⟩ h

theorem not_isolated_of_legal {b : Board} {sr sc dr dc : Int}
    (h : LegalMove b sr sc dr dc) : ¬Isolated b sr sc := by
  intro hiso
  obtain ⟨h1, h2, h3, h4⟩ := hiso
  have hshape := h.2.1
  rcases hshape with ⟨ha, hc⟩ | ⟨ha, hr⟩
  · have : dr = sr - 2 ∨ dr = sr + 2 := by omega
    rcases this with rfl | rfl
    · exact h1 (hc ▸ h)
    · exact h2 (hc ▸ h)
  · have : dc = sc - 2 ∨ dc = sc + 2 := by omega
    rcases this with rfl | rfl
    · exact h3 (hr ▸ h)
    · exact h4 (hr ▸ h)

theorem findValidMove_true_iff {b : Board} (hb : WellFormed b) :
    findValidMove b = some true ↔ HasLegalMove b := by
  rw [findValidMove_eq_any hb]
  simp only [Option.some.injEq, List.any_eq_true, movableAt, decide_eq_true_eq]
  constructor
  · rintro ⟨r, -, c, -, -, hni⟩
    obtain ⟨dr, dc, hl⟩ := legal_of_not_isolated hni
    exact ⟨r, c, dr, dc, (isValidMove_true_iff hb _ _ _ _).mpr hl⟩
  · rintro ⟨sr, sc, dr, dc, hv⟩
    have hl := (isValidMove_true_iff hb _ _ _ _).mp hv
    have hin := hl.1
    exact ⟨sr, mem_loopRange.mpr ⟨hin.1, hin.2.1⟩, sc,
      mem_loopRange.mpr ⟨hin.2.2.1, hin.2.2.2.1⟩, hl.2.2.1, not_isolated_of_legal hl⟩

theorem findValidMove_total {b : Board} (hb : WellFormed b) :
    ∃ found, findValidMove b = some found :=
  ⟨_, findValidMove_eq_any hb⟩

theorem checkGameState_won {s : GameState} (hb : WellFormed s.board)
    (h1 : marbles s.board = 1) :
    checkGameState s = some { s with gameOver := true, gameWon := true } := by
  unfold checkGameState
  rw [countMarbles_eq hb]
  simp [h1, centerCondition, CENTERWIN]

theorem checkGameState_not_won {s : GameState} (hb : WellFormed s.board)
    (h1 : marbles s.board ≠ 1) :
    (HasLegalMove s.board → checkGameState s = some s) ∧
    (¬HasLegalMove s.board →
      checkGameState s = some { s with gameOver := true, gameLost := true }) := by
  have h1i : ¬((marbles s.board : Int) = 1) := by omega
  have hiff := findValidMove_true_iff hb
  obtain ⟨found, hfound⟩ := findValidMove_total hb
  rw [hfound] at hiff
  have hcheck : checkGameState s = some
      (if found = true then s else { s with gameOver := true, gameLost := true }) := by
    unfold checkGameState
    rw [countMarbles_eq hb]
    simp only [Option.bind_eq_bind, Option.some_bind, h1i, if_false, false_and,
      Option.pure_def, hfound]
    cases found <;> simp
  constructor
  · intro h
    have : found = true := by simpa using hiff.mpr h
    rw [hcheck, if_pos this]
  · intro h
    have : ¬(found = true) := fun hf => h (hiff.mp (by rw [hf]))
    rw [hcheck, if_neg this]

/-! ## The invariant of the reachable states -/

theorem classicBoard_hasLayout : HasLayout classicBoard :=
  ⟨classicBoard_wf, fun _ _ => Iff.rfl⟩

theorem globals_wf : WellFormed globals.board := by decide

theorem programStart_eq : programStart = some startState := by
  unfold programStart
  rw [initGameBoard_of_wf globals_wf]
  rfl

theorem playable_transfer {b1 b2 : Board} (h1 : HasLayout b1) (h2 : HasLayout b2)
    {r c : Int} (h : readCell b1 r c = some MARBLE ∨ readCell b1 r c = some EMPTY) :
    readCell b2 r c = some MARBLE ∨ readCell b2 r c = some EMPTY := by
  have hrange : 0 ≤ r ∧ r < BOARD_SIZE ∧ 0 ≤ c ∧ c < BOARD_SIZE := by
    rcases h with h | h <;> exact readCell_range h1.1 h
  obtain ⟨v, hv⟩ := readCell_of_wf h2.1 hrange.1 hrange.2.1 hrange.2.2.1 hrange.2.2.2
  cases v with
  | INVALID =>
    have := (h1.2 r c).mpr ((h2.2 r c).mp hv)
    rcases h with h | h <;> rw [h] at this <;> cases this
  | EMPTY => exact Or.inr hv
  | MARBLE => exact Or.inl hv

theorem inv_start : Inv startState where
  board := classicBoard_hasLayout
  undoStack := by
    intro b hb
    simp only [startState, List.mem_singleton] at hb
    rw [hb]; exact classicBoard_hasLayout
  redoStack := by
    intro b hb
    simp [startState, globals] at hb
  top := rfl
  budget := by decide
  selection := Or.inl ⟨rfl, rfl⟩

theorem performMove_cases {s : GameState} (hb : WellFormed s.board) (sr sc dr dc : Int) :
    (¬LegalMove s.board sr sc dr dc ∧ performMove s sr sc dr dc = some s) ∨
    (LegalMove s.board sr sc dr dc ∧ ∃ b2,
      performMove s sr sc dr dc
        = some { s with board := b2, moveHistory := b2 :: s.moveHistory, redoHistory := [] } ∧
      WellFormed b2 ∧
      (∀ r c, readCell b2 r c =
        if r = dr ∧ c = dc then some MARBLE
        else if r = (sr + dr) / 2 ∧ c = (sc + dc) / 2 then some EMPTY
        else if r = sr ∧ c = sc then some EMPTY
        else readCell s.board r c) ∧
      marbles b2 + 1 = marbles s.board) := by
  by_cases h : LegalMove s.board sr sc dr dc
  · exact Or.inr ⟨h, performMove_legal hb h⟩
  · exact Or.inl ⟨h, performMove_illegal ((isValidMove_false_iff hb _ _ _ _).mpr h)⟩

theorem hasLayout_after_move {b b2 : Board} (hb : HasLayout b) {sr sc dr dc : Int}
    (hl : LegalMove b sr sc dr dc) (hwf : WellFormed b2)
    (hrd : ∀ r c, readCell b2 r c =
        if r = dr ∧ c = dc then some MARBLE
        else if r = (sr + dr) / 2 ∧ c = (sc + dc) / 2 then some EMPTY
        else if r = sr ∧ c = sc then some EMPTY
        else readCell b r c) : HasLayout b2 := by
  refine ⟨hwf, fun r c => ?_⟩
  rw [← hb.2 r c, hrd r c]
  obtain ⟨-, -, hsrc, hdst, hmid⟩ := hl
  by_cases h1 : r = dr ∧ c = dc
  · rw [if_pos h1, h1.1, h1.2, hdst]; simp
  · rw [if_neg h1]
    by_cases h2 : r = (sr + dr) / 2 ∧ c = (sc + dc) / 2
    · rw [if_pos h2, h2.1, h2.2, hmid]; simp
    · rw [if_neg h2]
      by_cases h3 : r = sr ∧ c = sc
      · rw [if_pos h3, h3.1, h3.2, hsrc]; simp
      · rw [if_neg h3]

theorem inv_performMove {s s2 : GameState} (hs : Inv s) {sr sc dr dc : Int}
    (h : performMove s sr sc dr dc = some s2) : Inv s2 := by
  rcases performMove_cases hs.board.1 sr sc dr dc with ⟨-, h0⟩ | ⟨hl, b2, h1, hwf, hrd, -⟩
  · rw [h0] at h; cases h; exact hs
  · rw [h1] at h; cases h
    have hlay : HasLayout b2 := hasLayout_after_move hs.board hl hwf hrd
    refine ⟨hlay, ?_, ?_, rfl, hs.budget, ?_⟩
    · intro b hb
      rcases List.mem_cons.mp hb with rfl | hb
      · exact hlay
      · exact hs.undoStack b hb
    · intro b hb; cases hb
    · rcases hs.selection with hn | ⟨hr, hc⟩
      · exact Or.inl hn
      · exact Or.inr ⟨hr, playable_transfer hs.board hlay hc⟩

theorem inv_undoMove {s : GameState} (hs : Inv s) : Inv (undoMove s) := by
  unfold undoMove
  split_ifs with hg
  · exact hs
  · match hm : s.moveHistory with
    | [] => simpa [hm] using hs
    | [_] => simpa [hm] using hs
    | top :: newTop :: rest =>
      simp only []
      have hmem : ∀ b ∈ top :: newTop :: rest, HasLayout b := hm ▸ hs.undoStack
      have hnew : HasLayout newTop := hmem newTop (by simp)
      refine ⟨hnew, ?_, ?_, rfl, ?_, ?_⟩
      · intro b hb; exact hmem b (List.mem_cons_of_mem _ hb)
      · intro b hb
        rcases List.mem_cons.mp hb with rfl | hb
        · exact hmem b (by simp)
        · exact hs.redoStack b hb
      · have := hs.budget
        simp only [not_or, not_le] at hg
        constructor <;> simp only [] <;> omega
      · rcases hs.selection with hn | ⟨hr, hc⟩
        · exact Or.inl hn
        · exact Or.inr ⟨hr, playable_transfer hs.board hnew hc⟩

theorem inv_redoMove {s : GameState} (hs : Inv s) : Inv (redoMove s) := by
  unfold redoMove
  split_ifs with hg
  · exact hs
  · match hm : s.redoHistory with
    | [] => simpa [hm] using hs
    | top :: rest =>
      simp only []
      have hmem : ∀ b ∈ top :: rest, HasLayout b := hm ▸ hs.redoStack
      have hnew : HasLayout top := hmem top (by simp)
      refine ⟨hnew, ?_, ?_, rfl, hs.budget, ?_⟩
      · intro b hb
        rcases List.mem_cons.mp hb with rfl | hb
        · exact hnew
        · exact hs.undoStack b hb
      · intro b hb; exact hmem b (List.mem_cons_of_mem _ hb)
      · rcases hs.selection with hn | ⟨hr, hc⟩
        · exact Or.inl hn
        · exact Or.inr ⟨hr, playable_transfer hs.board hnew hc⟩

theorem inv_of_fields {s s2 : GameState} (hs : Inv s) (h1 : s2.board = s.board)
    (h2 : s2.moveHistory = s.moveHistory) (h3 : s2.redoHistory = s.redoHistory)
    (h4 : s2.selectedRow = s.selectedRow) (h5 : s2.selectedCol = s.selectedCol)
    (h6 : s2.undosRemaining = s.undosRemaining) : Inv s2 := by
  obtain ⟨a, b, c, d, e, f⟩ := hs
  refine ⟨h1 ▸ a, h2 ▸ b, h3 ▸ c, by rw [h1, h2]; exact d, h6 ▸ e, ?_⟩
  unfold NoSelection SelectionInRange selectedCell at f ⊢
  rw [h1, h4, h5]
  exact f

theorem checkGameState_fields {s : GameState} (hb : WellFormed s.board) :
    ∃ s2, checkGameState s = some s2 ∧ s2.board = s.board ∧
      s2.moveHistory = s.moveHistory ∧ s2.redoHistory = s.redoHistory ∧
      s2.selectedRow = s.selectedRow ∧ s2.selectedCol = s.selectedCol ∧
      s2.undosRemaining = s.undosRemaining := by
  by_cases h1 : marbles s.board = 1
  · exact ⟨_, checkGameState_won hb h1, rfl, rfl, rfl, rfl, rfl, rfl⟩
  · by_cases h2 : HasLegalMove s.board
    · exact ⟨_, (checkGameState_not_won hb h1).1 h2, rfl, rfl, rfl, rfl, rfl, rfl⟩
    · exact ⟨_, (checkGameState_not_won hb h1).2 h2, rfl, rfl, rfl, rfl, rfl, rfl⟩

theorem inv_frameCheck {s : GameState} (hs : Inv s) :
    ∃ s2, frameCheck s = some s2 ∧ Inv s2 ∧ s2.undosRemaining = s.undosRemaining := by
  unfold frameCheck
  cases hg : s.gameOver with
  | true => exact ⟨s, by simp, hs, rfl⟩
  | false =>
    obtain ⟨s2, h, h1, h2, h3, h4, h5, h6⟩ := checkGameState_fields hs.board.1
    exact ⟨s2, by simpa using h, inv_of_fields hs h1 h2 h3 h4 h5 h6, h6⟩

theorem inv_clearSelection {s : GameState} (hs : Inv s) :
    Inv { s with selectedRow := -1, selectedCol := -1 } :=
  ⟨hs.board, hs.undoStack, hs.redoStack, hs.top, hs.budget, Or.inl ⟨rfl, rfl⟩⟩

theorem performMove_total {s : GameState} (hb : WellFormed s.board) (sr sc dr dc : Int) :
    ∃ s2, performMove s sr sc dr dc = some s2 := by
  rcases performMove_cases hb sr sc dr dc with ⟨-, h0⟩ | ⟨-, b2, h1, -⟩
  · exact ⟨_, h0⟩
  · exact ⟨_, h1⟩

theorem performMove_budget {s s2 : GameState} (hb : WellFormed s.board) {sr sc dr dc : Int}
    (h : performMove s sr sc dr dc = some s2) : s2.undosRemaining = s.undosRemaining := by
  rcases performMove_cases hb sr sc dr dc with ⟨-, h0⟩ | ⟨-, b2, h1, -⟩
  · rw [h0] at h; cases h; rfl
  · rw [h1] at h; cases h; rfl

theorem inv_clickCell {s : GameState} (hs : Inv s) (row col : Int) :
    ∃ s2, clickCell s row col = some s2 ∧ Inv s2 ∧
      s2.undosRemaining = s.undosRemaining ∧
      (NoSelection s2 ∨ (SelectionInRange s2 ∧ selectedCell s2 = some MARBLE)) := by
  unfold clickCell
  by_cases hsel : s.selectedRow = -1 ∧ s.selectedCol = -1
  · rw [if_pos hsel]
    by_cases hin : row ≥ 0 ∧ row < BOARD_SIZE ∧ col ≥ 0 ∧ col < BOARD_SIZE
    · rw [if_pos hin]
      obtain ⟨v, hv⟩ := readCell_of_wf hs.board.1 hin.1 hin.2.1 hin.2.2.1 hin.2.2.2
      rw [hv]
      by_cases hm : v = MARBLE
      · subst hm
        have hr : SelectionInRange { s with selectedRow := row, selectedCol := col } :=
          ⟨hin.1, hin.2.1, hin.2.2.1, hin.2.2.2⟩
        refine ⟨{ s with selectedRow := row, selectedCol := col }, by simp, ?_, rfl,
          Or.inr ⟨hr, hv⟩⟩
        exact ⟨hs.board, hs.undoStack, hs.redoStack, hs.top, hs.budget,
          Or.inr ⟨hr, Or.inl hv⟩⟩
      · exact ⟨s, by simp [hm], hs, rfl, Or.inl hsel⟩
    · rw [if_neg hin]
      exact ⟨s, rfl, hs, rfl, Or.inl hsel⟩
  · rw [if_neg hsel]
    rw [isValidMove_eq_decide hs.board.1]
    by_cases hl : LegalMove s.board s.selectedRow s.selectedCol row col
    · obtain ⟨s1, h1⟩ := performMove_total hs.board.1 s.selectedRow s.selectedCol row col
      have hbud : s1.undosRemaining = s.undosRemaining := performMove_budget hs.board.1 h1
      refine ⟨{ s1 with selectedRow := -1, selectedCol := -1 }, by simp [hl, h1], ?_,
        hbud, Or.inl ⟨rfl, rfl⟩⟩
      exact inv_clearSelection (inv_performMove hs h1)
    · exact ⟨{ s with selectedRow := -1, selectedCol := -1 }, by simp [hl],
        inv_clearSelection hs, rfl, Or.inl ⟨rfl, rfl⟩⟩

theorem inv_step {s : GameState} (hs : Inv s) (cmd : Cmd) :
    ∃ s2, step s cmd = some s2 ∧ Inv s2 := by
  cases cmd with
  | move sr sc dr dc =>
    obtain ⟨s2, h⟩ := performMove_total hs.board.1 sr sc dr dc
    exact ⟨s2, h, inv_performMove hs h⟩
  | undo => exact ⟨_, rfl, inv_undoMove hs⟩
  | redo => exact ⟨_, rfl, inv_redoMove hs⟩
  | click row col =>
    obtain ⟨s2, h, hi, -⟩ := inv_clickCell hs row col
    exact ⟨s2, h, hi⟩
  | frame =>
    obtain ⟨s2, h, hi, -⟩ := inv_frameCheck hs
    exact ⟨s2, h, hi⟩

theorem run_cons (s : GameState) (cmd : Cmd) (cmds : List Cmd) :
    run s (cmd :: cmds) = (step s cmd).bind (fun s1 => run s1 cmds) := by
  simp [run, List.foldlM_cons]

theorem inv_run {s : GameState} (hs : Inv s) (cmds : List Cmd) :
    ∃ s2, run s cmds = some s2 ∧ Inv s2 := by
  induction cmds generalizing s with
  | nil => exact ⟨s, rfl, hs⟩
  | cons cmd cmds ih =>
    obtain ⟨s1, h1, hi1⟩ := inv_step hs cmd
    obtain ⟨s2, h2, hi2⟩ := ih hi1
    exact ⟨s2, by rw [run_cons, h1]; exact h2, hi2⟩

theorem inv_of_reachable {s : GameState} (h : Reachable s) : Inv s := by
  obtain ⟨s0, cmds, h0, hrun⟩ := h
  rw [programStart_eq] at h0
  cases h0
  obtain ⟨s2, h2, hi2⟩ := inv_run inv_start cmds
  rw [hrun] at h2
  cases h2
  exact hi2

/-! ## The undo budget -/

theorem undoMove_budget (s : GameState) :
    (undoMove s).undosRemaining
      = s.undosRemaining - (if undoMove s ≠ s then 1 else 0) ∧
    (0 ≤ s.undosRemaining → 0 ≤ (undoMove s).undosRemaining) := by
  by_cases hg : s.moveHistory.length ≤ 1 ∨ s.undosRemaining ≤ 0 ∨ s.gameOver = true
  · have : undoMove s = s := by unfold undoMove; rw [if_pos hg]
    rw [this]; simp
  · match hm : s.moveHistory with
    | [] => simp [hm] at hg
    | [_] => simp [hm] at hg
    | top :: newTop :: rest =>
      have hu : (undoMove s).undosRemaining = s.undosRemaining - 1 := by
        unfold undoMove; rw [if_neg hg]; simp only [hm]
      have hne : undoMove s ≠ s := by
        intro h; rw [h] at hu; omega
      rw [if_pos hne, hu]
      simp only [not_or, not_le] at hg
      exact ⟨rfl, fun _ => by omega⟩

theorem redoMove_budget (s : GameState) :
    (redoMove s).undosRemaining = s.undosRemaining := by
  unfold redoMove
  split_ifs
  · rfl
  · match hm : s.redoHistory with
    | [] => rfl
    | top :: rest => rfl

theorem wfs_of_inv {s : GameState} (hs : Inv s) : WellFormedState s :=
  ⟨hs.board.1, fun b hb => (hs.undoStack b hb).1, fun b hb => (hs.redoStack b hb).1⟩

theorem wfs_performMove {s s2 : GameState} (hs : WellFormedState s) {sr sc dr dc : Int}
    (h : performMove s sr sc dr dc = some s2) : WellFormedState s2 := by
  rcases performMove_cases hs.1 sr sc dr dc with ⟨-, h0⟩ | ⟨-, b2, h1, hwf, -⟩
  · rw [h0] at h; cases h; exact hs
  · rw [h1] at h; cases h
    refine ⟨hwf, ?_, ?_⟩
    · intro b hb
      rcases List.mem_cons.mp hb with rfl | hb
      · exact hwf
      · exact hs.2.1 b hb
    · intro b hb; cases hb

theorem wfs_undoMove {s : GameState} (hs : WellFormedState s) :
    WellFormedState (undoMove s) := by
  unfold undoMove
  split_ifs with hg
  · exact hs
  · match hm : s.moveHistory with
    | [] => simpa [hm] using hs
    | [_] => simpa [hm] using hs
    | top :: newTop :: rest =>
      simp only []
      have hmem : ∀ b ∈ top :: newTop :: rest, WellFormed b := hm ▸ hs.2.1
      refine ⟨hmem newTop (by simp), ?_, ?_⟩
      · intro b hb; exact hmem b (List.mem_cons_of_mem _ hb)
      · intro b hb
        rcases List.mem_cons.mp hb with rfl | hb
        · exact hmem b (by simp)
        · exact hs.2.2 b hb

theorem wfs_redoMove {s : GameState} (hs : WellFormedState s) :
    WellFormedState (redoMove s) := by
  unfold redoMove
  split_ifs with hg
  · exact hs
  · match hm : s.redoHistory with
    | [] => simpa [hm] using hs
    | top :: rest =>
      simp only []
      have hmem : ∀ b ∈ top :: rest, WellFormed b := hm ▸ hs.2.2
      refine ⟨hmem top (by simp), ?_, ?_⟩
      · intro b hb
        rcases List.mem_cons.mp hb with rfl | hb
        · exact hmem b (by simp)
        · exact hs.2.1 b hb
      · intro b hb; exact hmem b (List.mem_cons_of_mem _ hb)

theorem wfs_frameCheck {s : GameState} (hs : WellFormedState s) :
    ∃ s2, frameCheck s = some s2 ∧ WellFormedState s2 ∧
      s2.undosRemaining = s.undosRemaining := by
  unfold frameCheck
  cases hg : s.gameOver with
  | true => exact ⟨s, by simp, hs, rfl⟩
  | false =>
    obtain ⟨s2, h, h1, h2, h3, -, -, h6⟩ := checkGameState_fields hs.1
    refine ⟨s2, by simpa using h, ?_, h6⟩
    unfold WellFormedState
    rw [h1, h2, h3]
    exact hs

theorem wfs_clickCell {s : GameState} (hs : WellFormedState s) (row col : Int) :
    ∃ s2, clickCell s row col = some s2 ∧ WellFormedState s2 ∧
      s2.undosRemaining = s.undosRemaining := by
  unfold clickCell
  by_cases hsel : s.selectedRow = -1 ∧ s.selectedCol = -1
  · rw [if_pos hsel]
    by_cases hin : row ≥ 0 ∧ row < BOARD_SIZE ∧ col ≥ 0 ∧ col < BOARD_SIZE
    · rw [if_pos hin]
      obtain ⟨v, hv⟩ := readCell_of_wf hs.1 hin.1 hin.2.1 hin.2.2.1 hin.2.2.2
      rw [hv]
      by_cases hm : v = MARBLE
      · exact ⟨{ s with selectedRow := row, selectedCol := col }, by simp [hm], hs, rfl⟩
      · exact ⟨s, by simp [hm], hs, rfl⟩
    · rw [if_neg hin]
      exact ⟨s, rfl, hs, rfl⟩
  · rw [if_neg hsel]
    rw [isValidMove_eq_decide hs.1]
    by_cases hl : LegalMove s.board s.selectedRow s.selectedCol row col
    · obtain ⟨s1, h1⟩ := performMove_total hs.1 s.selectedRow s.selectedCol row col
      have hbud : s1.undosRemaining = s.undosRemaining := performMove_budget hs.1 h1
      have hwf : WellFormedState s1 := wfs_performMove hs h1
      exact ⟨{ s1 with selectedRow := -1, selectedCol := -1 }, by simp [hl, h1], hwf, hbud⟩
    · exact ⟨{ s with selectedRow := -1, selectedCol := -1 }, by simp [hl], hs, rfl⟩

theorem wfs_step {s : GameState} (hs : WellFormedState s) (cmd : Cmd) :
    ∃ s2, step s cmd = some s2 ∧ WellFormedState s2 ∧
      s2.undosRemaining
        = s.undosRemaining - (if cmd = Cmd.undo ∧ s2 ≠ s then 1 else 0) ∧
      (0 ≤ s.undosRemaining → 0 ≤ s2.undosRemaining) := by
  cases cmd with
  | move sr sc dr dc =>
    obtain ⟨s2, h⟩ := performMove_total hs.1 sr sc dr dc
    have hb := performMove_budget hs.1 h
    exact ⟨s2, h, wfs_performMove hs h, by simp [hb], fun h0 => hb ▸ h0⟩
  | undo =>
    have hb := undoMove_budget s
    exact ⟨undoMove s, rfl, wfs_undoMove hs, by simpa using hb.1, hb.2⟩
  | redo =>
    have hb := redoMove_budget s
    exact ⟨redoMove s, rfl, wfs_redoMove hs, by simp [hb], fun h0 => hb ▸ h0⟩
  | click row col =>
    obtain ⟨s2, h, hwf, hb⟩ := wfs_clickCell hs row col
    exact ⟨s2, h, hwf, by simp [hb], fun h0 => hb ▸ h0⟩
  | frame =>
    obtain ⟨s2, h, hwf, hb⟩ := wfs_frameCheck hs
    exact ⟨s2, h, hwf, by simp [hb], fun h0 => hb ▸ h0⟩

theorem run_budget {s : GameState} (hs : WellFormedState s) (cmds : List Cmd) :
    ∃ s2 n, run s cmds = some s2 ∧ successfulUndos s cmds = some n ∧
      s2.undosRemaining = s.undosRemaining - (n : Int) ∧
      (0 ≤ s.undosRemaining → 0 ≤ s2.undosRemaining) := by
  induction cmds generalizing s with
  | nil => exact ⟨s, 0, rfl, rfl, by simp, id⟩
  | cons cmd cmds ih =>
    obtain ⟨s1, h1, hwf1, hstep, hnn1⟩ := wfs_step hs cmd
    obtain ⟨s2, n, h2, hn, hb, hnn2⟩ := ih hwf1
    refine ⟨s2, if cmd = Cmd.undo ∧ s1 ≠ s then n + 1 else n,
      by rw [run_cons, h1]; exact h2, by simp only [successfulUndos, h1, hn], ?_,
      fun h0 => hnn2 (hnn1 h0)⟩
    rw [hb, hstep]
    split_ifs <;> push_cast <;> omega

theorem readCell_none_of_out {b : Board} (hb : WellFormed b) {r c : Int}
    (h : ¬(0 ≤ r ∧ r < BOARD_SIZE ∧ 0 ≤ c ∧ c < BOARD_SIZE)) : readCell b r c = none := by
  cases hx : readCell b r c with
  | none => rfl
  | some v => exact absurd (readCell_range hb hx) h

theorem classicBoard_cells (r c : Int) :
    (readCell classicBoard r c = some INVALID ↔
      (r ∈ ([0, 1, 5, 6] : List Int) ∧ c ∈ ([0, 1, 5, 6] : List Int))) ∧
    (readCell classicBoard r c = some EMPTY ↔ (r = 3 ∧ c = 3)) ∧
    (readCell classicBoard r c = some MARBLE ↔
      (0 ≤ r ∧ r < 7 ∧ 0 ≤ c ∧ c < 7 ∧
        ¬(r ∈ ([0, 1, 5, 6] : List Int) ∧ c ∈ ([0, 1, 5, 6] : List Int)) ∧
        ¬(r = 3 ∧ c = 3))) := by
  by_cases hin : 0 ≤ r ∧ r < BOARD_SIZE ∧ 0 ≤ c ∧ c < BOARD_SIZE
  · rw [BOARD_SIZE_eq] at hin
    obtain ⟨h1, h2, h3, h4⟩ := hin
    interval_cases r <;> interval_cases c <;> decide
  · rw [readCell_none_of_out classicBoard_wf hin]
    rw [BOARD_SIZE_eq] at hin
    simp only [List.mem_cons, List.mem_singleton, List.not_mem_nil, or_false]
    refine ⟨⟨fun h => (by cases h), fun h => ?_⟩, ⟨fun h => (by cases h), fun h => ?_⟩,
      ⟨fun h => (by cases h), fun h => ?_⟩⟩ <;> exfalso <;> omega

/-! ## The claims -/

/-- C1: on every 7 x 7 board and for all integers `sr sc dr dc`, `isValidMove`
returns a result (it never reads a cell outside the grid, which would give
`none`), and the result is `true` exactly when the move is legal: both
positions inside `[0, N)`, an orthogonal jump of exactly two cells, source
`MARBLE`, destination `EMPTY`, midpoint `MARBLE`.  In particular a move whose
distance is not 2 (1 or 3, say), a diagonal move, a move with a position out
of range, and a move whose source, midpoint or destination is `INVALID` or
outside the grid are rejected. -/
theorem isValidMove_contract (b : Board) (hb : WellFormed b) (sr sc dr dc : Int) :
    ∃ res, isValidMove b sr sc dr dc = some res ∧
      (res = true ↔ LegalMove b sr sc dr dc) ∧
      ((dr - sr).natAbs + (dc - sc).natAbs ≠ 2 → res = false) ∧
      (dr ≠ sr ∧ dc ≠ sc → res = false) ∧
      (¬(0 ≤ sr ∧ sr < BOARD_SIZE ∧ 0 ≤ sc ∧ sc < BOARD_SIZE ∧
          0 ≤ dr ∧ dr < BOARD_SIZE ∧ 0 ≤ dc ∧ dc < BOARD_SIZE) → res = false) ∧
      (∀ r c, (r, c) ∈ [(sr, sc), midpoint sr sc dr dc, (dr, dc)] →
        (readCell b r c = some INVALID ∨ readCell b r c = none) → res = false) := by
  obtain ⟨res, hres, hiff⟩ := isValidMove_spec hb sr sc dr dc
  have hfalse : ¬LegalMove b sr sc dr dc → res = false := by
    intro h
    cases res with
    | false => rfl
    | true => exact absurd (hiff.mp rfl) h
  refine ⟨res, hres, hiff, ?_, ?_, ?_, ?_⟩
  · intro hd
    apply hfalse
    rintro ⟨-, hshape, -⟩
    omega
  · intro hd
    apply hfalse
    rintro ⟨-, hshape, -⟩
    omega
  · intro hr
    apply hfalse
    rintro ⟨hin, -⟩
    exact hr hin
  · intro r c hmem hcell
    apply hfalse
    rintro ⟨-, -, hsrc, hdst, hmid⟩
    simp only [midpoint, List.mem_cons, Prod.mk.injEq, List.mem_singleton,
      List.not_mem_nil, or_false] at hmem
    rcases hmem with ⟨rfl, rfl⟩ | ⟨rfl, rfl⟩ | ⟨rfl, rfl⟩
    · rw [hsrc] at hcell; rcases hcell with h | h <;> cases h
    · rw [hmid] at hcell; rcases hcell with h | h <;> cases h
    · rw [hdst] at hcell; rcases hcell with h | h <;> cases h

/-- Witness of C1: the jump from `(3, 1)` to `(3, 3)` on the starting layout. -/
theorem isValidMove_contract_witness :
    WellFormed classicBoard ∧
      ∃ res, isValidMove classicBoard 3 1 3 3 = some res ∧
        (res = true ↔ LegalMove classicBoard 3 1 3 3) :=
  ⟨classicBoard_wf,
    let ⟨res, h1, h2, _⟩ := isValidMove_contract classicBoard classicBoard_wf 3 1 3 3
    ⟨res, h1, h2⟩⟩

/-- C2: for every game state with a 7 x 7 board and every move `isValidMove`
accepts, `performMove` sets the source and the midpoint to `EMPTY` and the
destination to `MARBLE` and leaves every other cell unchanged: the new board
differs from the old one in exactly the three (distinct) cells source,
midpoint and destination, so it is never equal to it, and it holds exactly one
marble fewer.  The new board is pushed onto `moveHistory`, `redoHistory` is
emptied, so that a `redoMove` right afterwards changes nothing, and
`undosRemaining` is unchanged. -/
theorem performMove_contract (s : GameState) (hb : WellFormed s.board) (sr sc dr dc : Int)
    (hv : isValidMove s.board sr sc dr dc = some true) :
    ∃ s2, performMove s sr sc dr dc = some s2 ∧
      readCell s2.board sr sc = some EMPTY ∧
      readCell s2.board (midpoint sr sc dr dc).1 (midpoint sr sc dr dc).2 = some EMPTY ∧
      readCell s2.board dr dc = some MARBLE ∧
      (∀ r c, (r, c) ∉ [(sr, sc), midpoint sr sc dr dc, (dr, dc)] →
        readCell s2.board r c = readCell s.board r c) ∧
      (∀ r c, readCell s2.board r c ≠ readCell s.board r c ↔
        (r, c) ∈ [(sr, sc), midpoint sr sc dr dc, (dr, dc)]) ∧
      [(sr, sc), midpoint sr sc dr dc, (dr, dc)].Nodup ∧
      s2.board ≠ s.board ∧
      marbles s2.board + 1 = marbles s.board ∧
      s2.moveHistory = s2.board :: s.moveHistory ∧
      s2.redoHistory = [] ∧
      redoMove s2 = s2 ∧
      s2.undosRemaining = s.undosRemaining := by
  have hl := (isValidMove_true_iff hb sr sc dr dc).mp hv
  obtain ⟨b2, hperf, -, hrd, hcount⟩ := performMove_legal hb hl
  obtain ⟨⟨h1, h2, h3, h4, h5, h6, h7, h8⟩, hshape, hsrc, hdst, hmid⟩ := hl
  have hne1 : ¬((sr + dr) / 2 = sr ∧ (sc + dc) / 2 = sc) := by omega
  have hne2 : ¬(dr = (sr + dr) / 2 ∧ dc = (sc + dc) / 2) := by omega
  have hne3 : ¬(dr = sr ∧ dc = sc) := by omega
  have hne1b : ¬(sr = (sr + dr) / 2 ∧ sc = (sc + dc) / 2) := by omega
  have hne2b : ¬((sr + dr) / 2 = dr ∧ (sc + dc) / 2 = dc) := by omega
  have hne3b : ¬(sr = dr ∧ sc = dc) := by omega
  have hnew_src : readCell b2 sr sc = some EMPTY := by
    rw [hrd, if_neg hne3b, if_neg hne1b]; simp
  have hnew_mid : readCell b2 ((sr + dr) / 2) ((sc + dc) / 2) = some EMPTY := by
    rw [hrd, if_neg hne2b]; simp
  have hnew_dst : readCell b2 dr dc = some MARBLE := by
    rw [hrd]; simp
  have hsame : ∀ r c, (r, c) ∉ [(sr, sc), midpoint sr sc dr dc, (dr, dc)] →
      readCell b2 r c = readCell s.board r c := by
    intro r c hnot
    simp only [midpoint, List.mem_cons, Prod.mk.injEq, List.mem_singleton,
      List.not_mem_nil, or_false, not_or] at hnot
    rw [hrd, if_neg hnot.2.2, if_neg hnot.2.1, if_neg hnot.1]
  refine ⟨_, hperf, hnew_src, hnew_mid, hnew_dst, hsame, ?_, ?_, ?_, hcount, rfl, rfl, ?_, rfl⟩
  · intro r c
    constructor
    · intro hdiff
      by_contra hnot
      exact hdiff (hsame r c hnot)
    · intro hmem
      simp only [midpoint, List.mem_cons, Prod.mk.injEq, List.mem_singleton,
        List.not_mem_nil, or_false] at hmem
      show readCell b2 r c ≠ readCell s.board r c
      rcases hmem with ⟨rfl, rfl⟩ | ⟨rfl, rfl⟩ | ⟨rfl, rfl⟩
      · rw [hnew_src, hsrc]; simp
      · rw [hnew_mid, hmid]; simp
      · rw [hnew_dst, hdst]; simp
  · simp only [midpoint, List.nodup_cons, List.mem_cons, Prod.mk.injEq, List.mem_singleton,
      List.not_mem_nil, or_false, not_false_eq_true, List.nodup_nil, and_true, not_or]
    exact ⟨⟨hne1b, hne3b⟩, hne2b⟩
  · show b2 ≠ s.board
    intro heq
    rw [heq, hsrc] at hnew_src
    cases hnew_src
  · simp [redoMove]

/-- Witness of C2: the opening jump from `(3, 1)` to `(3, 3)`. -/
theorem performMove_contract_witness :
    WellFormed startState.board ∧ isValidMove startState.board 3 1 3 3 = some true ∧
      ∃ s2, performMove startState 3 1 3 3 = some s2 ∧ s2.board ≠ startState.board ∧
        marbles s2.board + 1 = marbles startState.board :=
  ⟨classicBoard_wf, by decide,
    let ⟨s2, h, _, _, _, _, _, _, hne, hm, _⟩ :=
      performMove_contract startState classicBoard_wf 3 1 3 3 (by decide)
    ⟨s2, h, hne, hm⟩⟩

/-- C3: for the default size 7, `initGameBoard` (run on any 7 x 7 board, in
particular on the initial globals) produces the board in which a cell `(r, c)`
is `INVALID` exactly when both `r` and `c` lie in `{0, 1, 5, 6}`, the cell
`(3, 3)` is the only `EMPTY` cell and every other cell of the grid is `MARBLE`:
33 playable cells, one of them empty, 32 marbles. -/
theorem initGameBoard_layout (s : GameState) (hb : WellFormed s.board) :
    ∃ s2, initGameBoard s = some s2 ∧
      (∀ r c : Int, readCell s2.board r c = some INVALID ↔
        (r ∈ ([0, 1, 5, 6] : List Int) ∧ c ∈ ([0, 1, 5, 6] : List Int))) ∧
      (∀ r c : Int, readCell s2.board r c = some EMPTY ↔ (r = 3 ∧ c = 3)) ∧
      (∀ r c : Int, readCell s2.board r c = some MARBLE ↔
        (0 ≤ r ∧ r < 7 ∧ 0 ≤ c ∧ c < 7 ∧
          ¬(r ∈ ([0, 1, 5, 6] : List Int) ∧ c ∈ ([0, 1, 5, 6] : List Int)) ∧
          ¬(r = 3 ∧ c = 3))) ∧
      cellCount MARBLE s2.board + cellCount EMPTY s2.board = 33 ∧
      cellCount EMPTY s2.board = 1 ∧
      cellCount MARBLE s2.board = 32 ∧
      cellCount INVALID s2.board = 16 ∧
      WellFormed s2.board ∧
      s2.board = classicBoard := by
  refine ⟨_, initGameBoard_of_wf hb, fun r c => (classicBoard_cells r c).1,
    fun r c => (classicBoard_cells r c).2.1, fun r c => (classicBoard_cells r c).2.2,
    ?_, ?_, ?_, ?_, classicBoard_wf, rfl⟩
  · show cellCount MARBLE classicBoard + cellCount EMPTY classicBoard = 33
    decide
  · show cellCount EMPTY classicBoard = 1
    decide
  · show cellCount MARBLE classicBoard = 32
    decide
  · show cellCount INVALID classicBoard = 16
    decide

/-- Witness of C3: `initGameBoard` at program start, on the initial globals. -/
theorem initGameBoard_layout_witness :
    WellFormed globals.board ∧
      ∃ s2, initGameBoard globals = some s2 ∧ cellCount MARBLE s2.board = 32 ∧
        cellCount EMPTY s2.board = 1 :=
  ⟨globals_wf,
    let ⟨s2, h, _, _, _, _, he, hm, _⟩ := initGameBoard_layout globals globals_wf
    ⟨s2, h, hm, he⟩⟩

/-- C4: with `CENTERWIN` false, `checkGameState` run on an in-progress game
with a 7 x 7 board returns, and the outcome it sets is Won exactly when the
board holds exactly one marble (wherever it sits), Lost exactly when the
marble count is not 1 and `isValidMove` accepts no pair of positions, and
still InProgress exactly when the marble count is not 1 and some legal move
exists.  Probing the four two-step neighbours of each marble finds every legal
move: the search loop sets `validMoveFound` exactly when a legal move exists,
which is exactly when some marble is not isolated, so a board whose marbles
are all isolated (and are not exactly one) is evaluated as Lost.
The board, the stacks, the selection and the undo budget are left as they
were. -/
theorem checkGameState_outcome (s : GameState) (hb : WellFormed s.board)
    (h1 : s.gameOver = false) (h2 : s.gameWon = false) (h3 : s.gameLost = false) :
    ∃ s2, checkGameState s = some s2 ∧
      ((s2.gameOver = true ∧ s2.gameWon = true ∧ s2.gameLost = false) ↔
        marbles s.board = 1) ∧
      ((s2.gameOver = true ∧ s2.gameLost = true ∧ s2.gameWon = false) ↔
        (marbles s.board ≠ 1 ∧ ¬HasLegalMove s.board)) ∧
      ((s2.gameOver = false ∧ s2.gameWon = false ∧ s2.gameLost = false) ↔
        (marbles s.board ≠ 1 ∧ HasLegalMove s.board)) ∧
      (∃ found, findValidMove s.board = some found ∧
        (found = true ↔ HasLegalMove s.board)) ∧
      (HasLegalMove s.board ↔
        ∃ r c, readCell s.board r c = some MARBLE ∧ ¬Isolated s.board r c) ∧
      (marbles s.board ≠ 1 →
        (∀ r c, readCell s.board r c = some MARBLE → Isolated s.board r c) →
        s2.gameOver = true ∧ s2.gameLost = true) ∧
      s2.board = s.board ∧ s2.moveHistory = s.moveHistory ∧
      s2.redoHistory = s.redoHistory ∧ s2.selectedRow = s.selectedRow ∧
      s2.selectedCol = s.selectedCol ∧ s2.undosRemaining = s.undosRemaining := by
  have hprobe : HasLegalMove s.board ↔
      ∃ r c, readCell s.board r c = some MARBLE ∧ ¬Isolated s.board r c := by
    constructor
    · rintro ⟨sr, sc, dr, dc, hv⟩
      have hl := (isValidMove_true_iff hb _ _ _ _).mp hv
      exact ⟨sr, sc, hl.2.2.1, not_isolated_of_legal hl⟩
    · rintro ⟨r, c, -, hni⟩
      obtain ⟨dr, dc, hl⟩ := legal_of_not_isolated hni
      exact ⟨r, c, dr, dc, (isValidMove_true_iff hb _ _ _ _).mpr hl⟩
  have hfind : ∃ found, findValidMove s.board = some found ∧
      (found = true ↔ HasLegalMove s.board) := by
    obtain ⟨found, hfound⟩ := findValidMove_total hb
    have hiff := findValidMove_true_iff hb
    rw [hfound] at hiff
    exact ⟨found, hfound, by simpa using hiff⟩
  have hiso : (∀ r c, readCell s.board r c = some MARBLE → Isolated s.board r c) →
      ¬HasLegalMove s.board := by
    intro hall hmove
    obtain ⟨r, c, hm, hni⟩ := hprobe.mp hmove
    exact hni (hall r c hm)
  by_cases hone : marbles s.board = 1
  · refine ⟨_, checkGameState_won hb hone, ?_, ?_, ?_, hfind, hprobe, ?_,
      rfl, rfl, rfl, rfl, rfl, rfl⟩
    · simp [hone, h3]
    · simp [hone]
    · simp [hone]
    · intro hne; exact absurd hone hne
  · by_cases hmove : HasLegalMove s.board
    · refine ⟨_, (checkGameState_not_won hb hone).1 hmove, ?_, ?_, ?_, hfind, hprobe, ?_,
        rfl, rfl, rfl, rfl, rfl, rfl⟩
      · simp [hone, h1]
      · simp [hone, hmove, h1]
      · simp [hone, hmove, h1, h2, h3]
      · intro _ hall; exact absurd hmove (hiso hall)
    · refine ⟨_, (checkGameState_not_won hb hone).2 hmove, ?_, ?_, ?_, hfind, hprobe, ?_,
        rfl, rfl, rfl, rfl, rfl, rfl⟩
      · simp [hone, h2]
      · simp [hone, hmove, h2]
      · simp [hone, hmove]
      · intro _ _; exact ⟨rfl, rfl⟩

/-- Witness of C4: the evaluation of the state in which the main loop
starts. -/
theorem checkGameState_outcome_witness :
    WellFormed startState.board ∧ startState.gameOver = false ∧
      startState.gameWon = false ∧ startState.gameLost = false ∧
      ∃ s2, checkGameState startState = some s2 ∧
        ((s2.gameOver = true ∧ s2.gameWon = true ∧ s2.gameLost = false) ↔
          marbles startState.board = 1) :=
  ⟨classicBoard_wf, rfl, rfl, rfl,
    let ⟨s2, h, hw, _⟩ := checkGameState_outcome startState classicBoard_wf rfl rfl rfl
    ⟨s2, h, hw⟩⟩

/-- C5: in every state reachable from program start, if the game is not over
and `undosRemaining > 0`, then for every move `isValidMove` accepts,
`performMove` followed at once by `undoMove` leaves the board (and the undo
stack) exactly as before the move, with `undosRemaining` one lower. -/
theorem performMove_then_undoMove (s : GameState) (hs : Reachable s)
    (hg : s.gameOver = false) (hu : 0 < s.undosRemaining) (sr sc dr dc : Int)
    (hv : isValidMove s.board sr sc dr dc = some true) :
    ∃ s2, performMove s sr sc dr dc = some s2 ∧
      (undoMove s2).board = s.board ∧
      (undoMove s2).moveHistory = s.moveHistory ∧
      (undoMove s2).undosRemaining = s.undosRemaining - 1 := by
  have hinv := inv_of_reachable hs
  have hl := (isValidMove_true_iff hinv.board.1 sr sc dr dc).mp hv
  obtain ⟨b2, hperf, -⟩ := performMove_legal hinv.board.1 hl
  refine ⟨_, hperf, ?_⟩
  have htop := hinv.top
  match hm : s.moveHistory with
  | [] => rw [hm] at htop; cases htop
  | top :: rest =>
    rw [hm] at htop
    simp only [List.head?_cons, Option.some.injEq] at htop
    subst htop
    have hguard : ¬((b2 :: s.board :: rest).length ≤ 1 ∨ s.undosRemaining ≤ 0 ∨
        s.gameOver = true) := by
      rintro (h | h | h)
      · simp only [List.length_cons] at h; omega
      · omega
      · rw [hg] at h; cases h
    refine ⟨?_, ?_, ?_⟩ <;> simp only [undoMove, hm, if_neg hguard]

/-- Witness of C5: the opening jump from `(3, 1)` to `(3, 3)`, undone. -/
theorem performMove_then_undoMove_witness :
    Reachable startState ∧ startState.gameOver = false ∧ 0 < startState.undosRemaining ∧
      isValidMove startState.board 3 1 3 3 = some true ∧
      ∃ s2, performMove startState 3 1 3 3 = some s2 ∧
        (undoMove s2).board = startState.board :=
  ⟨⟨startState, [], programStart_eq, rfl⟩, rfl, by decide, by decide,
    let ⟨s2, h, hb, _⟩ := performMove_then_undoMove startState
      ⟨startState, [], programStart_eq, rfl⟩ rfl (by decide) 3 1 3 3 (by decide)
    ⟨s2, h, hb⟩⟩

/-- C6: in every state reachable from program start, whenever `undoMove`
succeeds (more than one entry on the undo stack, `undosRemaining > 0`, game
not over) it changes the state, and a `redoMove` right after it restores the
board, the undo stack and the redo stack that existed before the undo, while
`undosRemaining` stays one lower than before the undo. -/
theorem undoMove_then_redoMove (s : GameState) (hs : Reachable s)
    (h1 : 1 < s.moveHistory.length) (h2 : 0 < s.undosRemaining)
    (h3 : s.gameOver = false) :
    undoMove s ≠ s ∧
      (redoMove (undoMove s)).board = s.board ∧
      (redoMove (undoMove s)).moveHistory = s.moveHistory ∧
      (redoMove (undoMove s)).redoHistory = s.redoHistory ∧
      (redoMove (undoMove s)).undosRemaining = (undoMove s).undosRemaining ∧
      (undoMove s).undosRemaining = s.undosRemaining - 1 := by
  have hinv := inv_of_reachable hs
  have htop := hinv.top
  have hguard : ¬(s.moveHistory.length ≤ 1 ∨ s.undosRemaining ≤ 0 ∨ s.gameOver = true) := by
    rintro (h | h | h)
    · omega
    · omega
    · rw [h3] at h; cases h
  match hm : s.moveHistory with
  | [] => rw [hm] at h1; simp at h1
  | [_] => rw [hm] at h1; simp at h1
  | top :: newTop :: rest =>
    rw [hm] at htop
    simp only [List.head?_cons, Option.some.injEq] at htop
    have hundo : undoMove s = { s with
        redoHistory := top :: s.redoHistory
        moveHistory := newTop :: rest
        board := newTop
        undosRemaining := s.undosRemaining - 1 } := by
      unfold undoMove
      rw [if_neg hguard]
      simp only [hm]
    have hbud : (undoMove s).undosRemaining = s.undosRemaining - 1 := by rw [hundo]
    have hne : undoMove s ≠ s := by
      intro h; rw [h] at hbud; omega
    have hredo : redoMove (undoMove s) = { s with
        redoHistory := s.redoHistory
        moveHistory := top :: newTop :: rest
        board := top
        undosRemaining := s.undosRemaining - 1 } := by
      rw [hundo]
      unfold redoMove
      simp [h3]
    refine ⟨hne, ?_, ?_, ?_, ?_, hbud⟩
    · rw [hredo]; exact htop
    · rw [hredo]
    · rw [hredo]
    · rw [hredo, hundo]

/-- Witness of C6: undo and redo after the opening jump. -/
theorem undoMove_then_redoMove_witness :
    Reachable openingState ∧ 1 < openingState.moveHistory.length ∧
      0 < openingState.undosRemaining ∧ openingState.gameOver = false ∧
      undoMove openingState ≠ openingState ∧
      (redoMove (undoMove openingState)).board = openingState.board :=
  ⟨⟨startState, [Cmd.move 3 1 3 3], programStart_eq, by decide⟩, by decide, by decide,
    by decide,
    (undoMove_then_redoMove openingState
      ⟨startState, [Cmd.move 3 1 3 3], programStart_eq, by decide⟩
      (by decide) (by decide) (by decide)).1,
    (undoMove_then_redoMove openingState
      ⟨startState, [Cmd.move 3 1 3 3], programStart_eq, by decide⟩
      (by decide) (by decide) (by decide)).2.1⟩

/-- C7: in every run that starts from a new game, that is from a state whose
boards are all 7 x 7 and whose `undosRemaining` is 3 (the state at program
start, or the state Replay produces), and consists of `performMove`,
`undoMove` and `redoMove` calls (and of clicks and per-frame checks), the run
returns a state in which `undosRemaining` equals 3 minus the number of
`undoMove` calls that changed the state and lies in `[0, 3]`; so at most 3
undos succeed, and after 3 successful undos `undoMove` is a no-op on the whole
state, whatever the undo stack holds. -/
theorem undo_budget (s0 : GameState) (hwf : WellFormedState s0)
    (h3 : s0.undosRemaining = 3) (cmds : List Cmd) :
    ∃ (s : GameState) (n : Nat), run s0 cmds = some s ∧
      successfulUndos s0 cmds = some n ∧
      s.undosRemaining = 3 - (n : Int) ∧
      0 ≤ s.undosRemaining ∧ s.undosRemaining ≤ 3 ∧ n ≤ 3 ∧
      (n = 3 → undoMove s = s) := by
  obtain ⟨s, n, hrun, hn, hb, hnn⟩ := run_budget hwf cmds
  rw [h3] at hb hnn
  have h0 : 0 ≤ s.undosRemaining := hnn (by decide)
  refine ⟨s, n, hrun, hn, hb, h0, by omega, by omega, ?_⟩
  intro hn3
  have hz : s.undosRemaining ≤ 0 := by omega
  unfold undoMove
  rw [if_pos (Or.inr (Or.inl hz))]

/-- Witness of C7: the new game at program start, with four jumps and four
`undoMove` calls. -/
theorem undo_budget_witness :
    programStart = some startState ∧ WellFormedState startState ∧
      startState.undosRemaining = 3 ∧
      ∃ (s : GameState) (n : Nat), run startState [Cmd.move 1 3 3 3, Cmd.move 4 3 2 3,
          Cmd.move 3 1 3 3, Cmd.move 3 4 3 2, Cmd.undo, Cmd.undo, Cmd.undo, Cmd.undo]
            = some s ∧
        s.undosRemaining = 3 - (n : Int) ∧ n ≤ 3 :=
  ⟨programStart_eq, by decide, rfl,
    let ⟨s, n, h, _, hb, _, _, hn, _⟩ := undo_budget startState (by decide) rfl
      [Cmd.move 1 3 3 3, Cmd.move 4 3 2 3, Cmd.move 3 1 3 3, Cmd.move 3 4 3 2,
        Cmd.undo, Cmd.undo, Cmd.undo, Cmd.undo]
    ⟨s, n, h, hb, hn⟩⟩

/-- The state Replay produces is a new game too: all its boards are 7 x 7 and
`undosRemaining` is 3. -/
theorem replay_newGame (s : GameState) (hb : WellFormed s.board) :
    ∃ s2, replay s = some s2 ∧ WellFormedState s2 ∧ s2.undosRemaining = 3 := by
  have h := initGameBoard_of_wf hb
  have h2 : replay s = some
      { s with
        board := classicBoard
        gameOver := false
        gameWon := false
        gameLost := false
        undosRemaining := 3
        redoHistory := []
        moveHistory := [] } := by
    simp [replay, h]
  refine ⟨_, h2, ⟨classicBoard_wf, ?_, ?_⟩, rfl⟩
  · intro b hb; cases hb
  · intro b hb; cases hb

/-- After four jumps and three undos the undo stack still holds two boards,
the budget is 0 and a fourth `undoMove` changes nothing. -/
theorem undo_budget_example :
    run startState [Cmd.move 1 3 3 3, Cmd.move 4 3 2 3, Cmd.move 3 1 3 3,
        Cmd.move 3 4 3 2, Cmd.undo, Cmd.undo, Cmd.undo] = some threeUndosState ∧
      threeUndosState.moveHistory.length = 2 ∧ threeUndosState.undosRemaining = 0 ∧
      undoMove threeUndosState = threeUndosState := by
  decide

/-- C8, counterexample: Replay pressed in a reachable game-over state (the
dead-end game, lost, with the marble at `(2, 3)` clicked afterwards) leaves
the undo stack empty, not holding the initial board, and leaves the selection
at `(2, 3)`. -/
theorem replay_counterexample :
    Reachable deadEndState ∧ deadEndState.gameOver = true ∧
      ∃ s2, replay deadEndState = some s2 ∧ s2.board = classicBoard ∧
        s2.moveHistory = [] ∧ s2.moveHistory ≠ [s2.board] ∧
        s2.selectedRow = 2 ∧ s2.selectedCol = 3 :=
  ⟨⟨startState, deadEndGame ++ [Cmd.frame, Cmd.click 2 3], programStart_eq, by decide⟩,
    by decide, (replay deadEndState).getD startState, by decide, by decide, by decide,
    by decide, by decide, by decide⟩

/-- C8, amended: Replay, from every state with a 7 x 7 board (in particular
every game-over state in which the button is shown), returns a state whose
board is the freshly generated initial layout, whose redo stack is empty,
with `undosRemaining = 3` and `gameOver`, `gameWon`, `gameLost` all false; the
selection is left as it was. -/
theorem replay_resets (s : GameState) (hb : WellFormed s.board) :
    ∃ s1 s2, initGameBoard s = some s1 ∧ replay s = some s2 ∧
      s2.board = s1.board ∧ s2.board = classicBoard ∧
      s2.redoHistory = [] ∧ s2.undosRemaining = 3 ∧
      s2.gameOver = false ∧ s2.gameWon = false ∧ s2.gameLost = false ∧
      s2.selectedRow = s.selectedRow ∧ s2.selectedCol = s.selectedCol := by
  have h := initGameBoard_of_wf hb
  have h2 : replay s = some
      { s with
        board := classicBoard
        gameOver := false
        gameWon := false
        gameLost := false
        undosRemaining := 3
        redoHistory := []
        moveHistory := [] } := by
    simp [replay, h]
  exact ⟨_, _, h, h2, rfl, rfl, rfl, rfl, rfl, rfl, rfl, rfl, rfl⟩

/-- Witness of C8 (amended): Replay in the lost state of the dead-end game. -/
theorem replay_resets_witness :
    WellFormed deadEndState.board ∧
      ∃ s2, replay deadEndState = some s2 ∧ s2.board = classicBoard ∧
        s2.redoHistory = [] ∧ s2.undosRemaining = 3 ∧ s2.gameOver = false :=
  ⟨by decide,
    let ⟨_, s2, _, h, _, hb, hr, hu, hg, _⟩ := replay_resets deadEndState (by decide)
    ⟨s2, h, hb, hr, hu, hg⟩⟩

/-- C9: every rejected command leaves the whole game state unchanged, so it
adds no history entry: `performMove` with a move that `isValidMove` rejects,
in particular with a position out of range; `undoMove` when the undo stack has
at most one entry (whatever `undosRemaining` is), or `undosRemaining` is 0 (or
less), or the game is over; `redoMove` when the redo stack is empty or the
game is over. -/
theorem rejected_commands_are_noops (s : GameState) :
    (∀ sr sc dr dc : Int, isValidMove s.board sr sc dr dc = some false →
      performMove s sr sc dr dc = some s) ∧
    (∀ sr sc dr dc : Int,
      ¬(0 ≤ sr ∧ sr < BOARD_SIZE ∧ 0 ≤ sc ∧ sc < BOARD_SIZE ∧
        0 ≤ dr ∧ dr < BOARD_SIZE ∧ 0 ≤ dc ∧ dc < BOARD_SIZE) →
      isValidMove s.board sr sc dr dc = some false ∧ performMove s sr sc dr dc = some s) ∧
    (WellFormed s.board → ∀ sr sc dr dc : Int,
      isValidMove s.board sr sc dr dc ≠ some true → performMove s sr sc dr dc = some s) ∧
    (s.moveHistory.length ≤ 1 → undoMove s = s) ∧
    (s.undosRemaining ≤ 0 → undoMove s = s) ∧
    (s.gameOver = true → undoMove s = s) ∧
    (s.redoHistory = [] → redoMove s = s) ∧
    (s.gameOver = true → redoMove s = s) := by
  refine ⟨fun _ _ _ _ h => performMove_illegal h, ?_, ?_, ?_, ?_, ?_, ?_, ?_⟩
  · intro sr sc dr dc hout
    have hv : isValidMove s.board sr sc dr dc = some false := by
      unfold isValidMove
      rw [if_pos (by omega)]
    exact ⟨hv, performMove_illegal hv⟩
  · intro hb sr sc dr dc hne
    obtain ⟨res, hres, -⟩ := isValidMove_spec hb sr sc dr dc
    cases res with
    | true => exact absurd hres hne
    | false => exact performMove_illegal hres
  · intro h; unfold undoMove; rw [if_pos (Or.inl h)]
  · intro h; unfold undoMove; rw [if_pos (Or.inr (Or.inl h))]
  · intro h; unfold undoMove; rw [if_pos (Or.inr (Or.inr h))]
  · intro h; unfold redoMove; rw [if_pos (Or.inl (by rw [h]; rfl))]
  · intro h; unfold redoMove; rw [if_pos (Or.inr h)]

/-- Witness of C9: at the start of the game a jump of distance 1, a jump from
outside the grid, an undo and a redo are all rejected and change nothing. -/
theorem rejected_commands_are_noops_witness :
    isValidMove startState.board 3 2 3 3 = some false ∧
      performMove startState 3 2 3 3 = some startState ∧
      performMove startState 3 (-1) 3 1 = some startState ∧
      startState.moveHistory.length ≤ 1 ∧ undoMove startState = startState ∧
      startState.redoHistory = [] ∧ redoMove startState = startState :=
  ⟨by decide,
    (rejected_commands_are_noops startState).1 3 2 3 3 (by decide),
    ((rejected_commands_are_noops startState).2.1 3 (-1) 3 1 (by decide)).2,
    by decide,
    (rejected_commands_are_noops startState).2.2.2.1 (by decide),
    rfl,
    (rejected_commands_are_noops startState).2.2.2.2.2.2.1 rfl⟩

/-- C10, counterexample: two clicks make the opening jump, a third click
selects the marble that has landed on `(3, 3)`, and `undoMove` then restores
the starting board, in which `(3, 3)` is `EMPTY`, while the selection stays
at `(3, 3)`. -/
theorem selection_counterexample :
    programStart = some startState ∧
      run startState [Cmd.click 3 1, Cmd.click 3 3, Cmd.click 3 3, Cmd.undo]
        = some staleSelectionState ∧
      staleSelectionState.selectedRow = 3 ∧ staleSelectionState.selectedCol = 3 ∧
      readCell staleSelectionState.board 3 3 = some EMPTY ∧
      ¬(selectedCell staleSelectionState = some MARBLE) :=
  ⟨programStart_eq, by decide, by decide, by decide, by decide, by decide⟩

/-- C10, amended: in every state reachable from program start by cell clicks,
`undoMove` and `redoMove` calls (and by `performMove` calls and per-frame
checks), the selection is either none or an in-range position whose cell in
the current board is `MARBLE` or `EMPTY`, never `INVALID`; and every cell
click returns a state whose selection is none or an in-range position whose
cell is `MARBLE`. -/
theorem selection_invariant (s : GameState) (hs : Reachable s) :
    (NoSelection s ∨
      (SelectionInRange s ∧ (selectedCell s = some MARBLE ∨ selectedCell s = some EMPTY))) ∧
    ∀ row col : Int, ∃ s2, clickCell s row col = some s2 ∧
      (NoSelection s2 ∨ (SelectionInRange s2 ∧ selectedCell s2 = some MARBLE)) := by
  have hinv := inv_of_reachable hs
  refine ⟨hinv.selection, fun row col => ?_⟩
  obtain ⟨s2, h, -, -, hsel⟩ := inv_clickCell hinv row col
  exact ⟨s2, h, hsel⟩

/-- Witness of C10 (amended): the state of the counterexample, whose selected
cell is `EMPTY`. -/
theorem selection_invariant_witness :
    Reachable staleSelectionState ∧
      (NoSelection staleSelectionState ∨
        (SelectionInRange staleSelectionState ∧
          (selectedCell staleSelectionState = some MARBLE ∨
            selectedCell staleSelectionState = some EMPTY))) :=
  ⟨⟨startState, [Cmd.click 3 1, Cmd.click 3 3, Cmd.click 3 3, Cmd.undo], programStart_eq,
      by decide⟩,
    (selection_invariant staleSelectionState
      ⟨startState, [Cmd.click 3 1, Cmd.click 3 3, Cmd.click 3 3, Cmd.undo], programStart_eq,
        by decide⟩).1⟩

/-- C11: in every state reachable from program start by `performMove`,
`undoMove` and `redoMove` calls (and by clicks and per-frame checks), the
current board and every snapshot on the undo and redo stacks is a 7 x 7 board
whose `INVALID` cells are exactly the `INVALID` cells of the initial layout,
and whose playable (`MARBLE` or `EMPTY`) cells are exactly its playable cells;
and every operation returns a state whose board has the same `INVALID` cells
and the same playable cells as the board before it: only `EMPTY` and `MARBLE`
toggle. -/
theorem invalid_cells_fixed (s : GameState) (hs : Reachable s) :
    programStart = some startState ∧
    (∀ b ∈ s.board :: (s.moveHistory ++ s.redoHistory),
      WellFormed b ∧ ∀ r c : Int,
        (readCell b r c = some INVALID ↔ readCell startState.board r c = some INVALID) ∧
        ((readCell b r c = some MARBLE ∨ readCell b r c = some EMPTY) ↔
          (readCell startState.board r c = some MARBLE ∨
            readCell startState.board r c = some EMPTY))) ∧
    (∀ cmd : Cmd, ∃ s2, step s cmd = some s2 ∧ ∀ r c : Int,
      (readCell s2.board r c = some INVALID ↔ readCell s.board r c = some INVALID) ∧
      ((readCell s2.board r c = some MARBLE ∨ readCell s2.board r c = some EMPTY) ↔
        (readCell s.board r c = some MARBLE ∨ readCell s.board r c = some EMPTY))) := by
  have hinv := inv_of_reachable hs
  refine ⟨programStart_eq, ?_, ?_⟩
  · intro b hb
    have hlay : HasLayout b := by
      rcases List.mem_cons.mp hb with rfl | hb
      · exact hinv.board
      · rcases List.mem_append.mp hb with hb | hb
        · exact hinv.undoStack b hb
        · exact hinv.redoStack b hb
    refine ⟨hlay.1, fun r c => ⟨hlay.2 r c, ?_, ?_⟩⟩
    · exact playable_transfer hlay classicBoard_hasLayout
    · exact playable_transfer classicBoard_hasLayout hlay
  · intro cmd
    obtain ⟨s2, hstep, hinv2⟩ := inv_step hinv cmd
    refine ⟨s2, hstep, fun r c => ⟨?_, ?_, ?_⟩⟩
    · rw [hinv2.board.2 r c, hinv.board.2 r c]
    · exact playable_transfer hinv2.board hinv.board
    · exact playable_transfer hinv.board hinv2.board

/-- Witness of C11: the state after four jumps and three `undoMove` calls,
whose stacks hold two and three snapshots. -/
theorem invalid_cells_fixed_witness :
    Reachable threeUndosState ∧
      threeUndosState.moveHistory.length = 2 ∧ threeUndosState.redoHistory.length = 3 ∧
      ∀ b ∈ threeUndosState.board ::
          (threeUndosState.moveHistory ++ threeUndosState.redoHistory),
        WellFormed b ∧ ∀ r c : Int,
          (readCell b r c = some INVALID ↔ readCell startState.board r c = some INVALID) ∧
          ((readCell b r c = some MARBLE ∨ readCell b r c = some EMPTY) ↔
            (readCell startState.board r c = some MARBLE ∨
              readCell startState.board r c = some EMPTY)) :=
  ⟨⟨startState, [Cmd.move 1 3 3 3, Cmd.move 4 3 2 3, Cmd.move 3 1 3 3, Cmd.move 3 4 3 2,
      Cmd.undo, Cmd.undo, Cmd.undo], programStart_eq, by decide⟩,
    by decide, by decide,
    (invalid_cells_fixed threeUndosState
      ⟨startState, [Cmd.move 1 3 3 3, Cmd.move 4 3 2 3, Cmd.move 3 1 3 3, Cmd.move 3 4 3 2,
        Cmd.undo, Cmd.undo, Cmd.undo], programStart_eq, by decide⟩).2.1⟩

end MarbleSolitaire
